import Mathlib

/-! # Set-associative cache with MRU-matrix LRU replacement

A shallow embedding of the `cache` class of `cache_comp.cpp`, and of the variant
of its `memory_requests` in `tut_6.cpp`, together with theorems about their
behaviour.

Conventions of the embedding:
* the dynamically allocated arrays `tag_vals[N][K]` and `real_LRU[N][K][K]`
  are total maps from indices to cell values; the code only ever touches
  cells with `set < N` and way indices `< K`;
* a `std::vector<uint16_t>` is a `List Nat` whose elements are `< 65536`;
* the `uint32_t` counters of `hit_info` wrap modulo `2 ^ 32`;
* `LRU`, which can fall off its end without a `return`, yields an `Option`.
-/

namespace CacheSim

/-! ## Data model -/

/-- The struct `cache::hit_info`: two `uint32_t` counters. -/
structure hit_info where
  misses : Nat
  hits : Nat
deriving DecidableEq, Repr

/-- The private members of `class cache` (the unused `cache3D` data array is left out). -/
structure cache where
  L : Nat
  N : Nat
  K : Nat
  tag_vals : Nat → Nat → Nat
  real_LRU : Nat → Nat → Nat → Nat

/-- Worker of `log2`: halve `n` at most `fuel` times. -/
def log2Aux : Nat → Nat → Nat
  | 0, _ => 0
  | fuel + 1, n => if 2 ≤ n then log2Aux fuel (n / 2) + 1 else 0

/-- The value of `std::log2(x)` after conversion to `uint16_t`, for `1 ≤ x ≤ 255`:
the integer part of the binary logarithm. -/
def log2 (n : Nat) : Nat := log2Aux n n

/-- Assignment `a[i][j] = v` on a two-dimensional array. -/
def write2 (a : Nat → Nat → Nat) (i j v : Nat) : Nat → Nat → Nat :=
  fun i' j' => if i' = i ∧ j' = j then v else a i' j'

/-- Assignment `a[i][j][k] = v` on a three-dimensional array. -/
def write3 (a : Nat → Nat → Nat → Nat) (i j k v : Nat) : Nat → Nat → Nat → Nat :=
  fun i' j' k' => if i' = i ∧ j' = j ∧ k' = k then v else a i' j' k'

/-- The constructor `cache(uint8_t Lin, uint8_t Nin, uint8_t Kin)`: the three
parameters are converted to `uint8_t`, every tag slot is set to `0xFFFF` and
every cell of the recency matrices to `0`. -/
def cache.new (Lin Nin Kin : Nat) : cache where
  L := Lin % 256
  N := Nin % 256
  K := Kin % 256
  tag_vals := fun _ _ => 0xFFFF
  real_LRU := fun _ _ _ => 0

/-! ## Address fields (lines 105-112 of `memory_requests`) -/

/-- `uint16_t offsetSize = std::log2(L);` -/
def cache.offsetSize (c : cache) : Nat := log2 c.L

/-- `uint16_t offset = *it & (L-1);` -/
def cache.offset (c : cache) (x : Nat) : Nat := x &&& (c.L - 1)

/-- `uint16_t setSize = std::log2(N);` -/
def cache.setSize (c : cache) : Nat := log2 c.N

/-- `uint16_t set = (*it >> offsetSize) & (N-1);` -/
def cache.set (c : cache) (x : Nat) : Nat := (x >>> c.offsetSize) &&& (c.N - 1)

/-- `uint16_t tagSize = 16 - setSize - offsetSize;` -/
def cache.tagSize (c : cache) : Nat := 16 - c.setSize - c.offsetSize

/-- `uint16_t tag = (*it >> (offsetSize + setSize));` -/
def cache.tag (c : cache) (x : Nat) : Nat := x >>> (c.offsetSize + c.setSize)

/-! ## Recency bookkeeping -/

/-- `LRU_addition(line, set)`: the first loop writes `1` into every cell of
row `line`, the second writes `0` into every cell of column `line`. -/
def cache.LRU_addition (c : cache) (line set : Nat) : cache :=
  let m1 := (List.range c.K).foldl (fun m i => write3 m set line i 1) c.real_LRU
  let m2 := (List.range c.K).foldl (fun m i => write3 m set i line 0) m1
  { c with real_LRU := m2 }

/-- The inner loop of `LRU` over the columns `js` of one row, threading the
flag `temp`: a zero cell sets it, a non-zero cell clears it and breaks. -/
def LRU_row (row : Nat → Nat) : List Nat → Bool → Bool
  | [], temp => temp
  | j :: js, _ => if row j = 0 then LRU_row row js true else false

/-- The outer loop of `LRU` over the ways `is`: return the first way whose
inner loop ends with `temp` set. Running off the end of the loop (where the
source has no `return`) is `none`. -/
def LRU_scan (c : cache) (set : Nat) : List Nat → Bool → Option Nat
  | [], _ => none
  | i :: is, temp =>
    if LRU_row (c.real_LRU set i) (List.range c.K) temp then some i
    else LRU_scan c set is false

/-- `uint8_t LRU(uint16_t set)`; the returned way is below `K ≤ 255`, so the
conversion to `uint8_t` keeps it. -/
def cache.LRU (c : cache) (set : Nat) : Option Nat :=
  LRU_scan c set (List.range c.K) false

/-! ## Request processing -/

/-- The hit scan (lines 115-123): the first way of `set` whose tag equals `tag`. -/
def cache.find_hit (c : cache) (set tag : Nat) : Option Nat :=
  (List.range c.K).find? (fun i => c.tag_vals set i == tag)

/-- One iteration of the loop of `memory_requests` in `cache_comp.cpp`, without
the counters: whether the access hit, the way it touched, and the new cache. -/
def cache.step (c : cache) (x : Nat) : Option (Bool × Nat × cache) :=
  match c.find_hit (c.set x) (c.tag x) with
  | some i => some (true, i, c.LRU_addition i (c.set x))
  | none =>
    match c.LRU (c.set x) with
    | some line2replace =>
      some (false, line2replace,
        ({ c with tag_vals := write2 c.tag_vals (c.set x) line2replace (c.tag x) } : cache).LRU_addition
          line2replace (c.set x))
    | none => none

/-- The counter update of one iteration: `info.hits++` or `info.misses++` on `uint32_t`. -/
def hit_info.count (info : hit_info) (hit : Bool) : hit_info :=
  if hit then { info with hits := (info.hits + 1) % 2 ^ 32 }
  else { info with misses := (info.misses + 1) % 2 ^ 32 }

/-- The counters of `memory_requests` after iterations with the outcomes `outs`: they
start at zero and each iteration increments one of them in `uint32_t`. -/
def hit_info.tally (outs : List Bool) : hit_info :=
  outs.foldl hit_info.count { misses := 0, hits := 0 }

/-- Componentwise sum of two `hit_info` values, taken in their `uint32_t` fields. -/
def hit_info.add (p q : hit_info) : hit_info :=
  { misses := (p.misses + q.misses) % 2 ^ 32, hits := (p.hits + q.hits) % 2 ^ 32 }

/-- The loop of `memory_requests` over the remaining requests. -/
def cache.requests_loop : cache → hit_info → List Nat → Option (hit_info × cache)
  | c, info, [] => some (info, c)
  | c, info, x :: xs =>
    match c.step x with
    | some (hit, _, c') => c'.requests_loop (info.count hit) xs
    | none => none

/-- `memory_requests(mem_req)` of `cache_comp.cpp`: the returned `hit_info`
together with the cache state it leaves behind. -/
def cache.memory_requests (c : cache) (mem_req : List Nat) : Option (hit_info × cache) :=
  c.requests_loop { misses := 0, hits := 0 } mem_req

/-- The trace built in `main`. -/
def memory_inputs : List Nat :=
  [0x0000, 0x0004, 0x000c, 0x2200, 0x00d0, 0x00e0, 0x1130,
   0x0028, 0x113c, 0x2204, 0x0010, 0x0020, 0x0004, 0x0040,
   0x2208, 0x0008, 0x00a0, 0x0004, 0x1104, 0x0028, 0x000c,
   0x0084, 0x000c, 0x3390, 0x00b0, 0x1100, 0x0028, 0x0064,
   0x0070, 0x00d0, 0x0008, 0x3394]

/-- The counts returned by two consecutive calls `memory_requests(xs)` and
`memory_requests(ys)` on the same cache object. -/
def cache.two_calls (c : cache) (xs ys : List Nat) : Option (hit_info × hit_info) :=
  match c.memory_requests xs with
  | some (info1, c1) =>
    match c1.memory_requests ys with
    | some (info2, _) => some (info1, info2)
    | none => none
  | none => none

/-- The counts returned by `memory_requests`, as printed by `test1` .. `test4`. -/
def cache.counts (c : cache) (mem_req : List Nat) : Option hit_info :=
  (c.memory_requests mem_req).map Prod.fst

/-! ## Invariants of the recency matrix and the tag store -/

/-- The recency matrix of set `s` agrees with the time stamps `last`, where `last w` is
the time of the most recent access to way `w` (and `0` when it was never accessed):
the cell `[i][j]` is `1` exactly when way `i` was accessed after way `j`. -/
def MatOK (c : cache) (s : Nat) (last : Nat → Nat) : Prop :=
  ∀ i j, i < c.K → j < c.K → c.real_LRU s i j = if last j < last i then 1 else 0

/-- Every recency matrix of the cache is generated by some access history. -/
def MatInv (c : cache) : Prop :=
  0 < c.K ∧ ∀ s, ∃ last clock, (∀ w, last w ≤ clock) ∧ MatOK c s last

/-- The state of set `s` is described by the list `ws` of its accessed ways, most
recently accessed first: the accessed ways are `0 .. ws.length - 1`, the matrix
encodes their order, the other ways are empty, and the accessed ways hold pairwise
different tags, none of them the sentinel. -/
def SetInv (c : cache) (s : Nat) (ws : List Nat) : Prop :=
  ws.length ≤ c.K ∧
  (∀ w, w ∈ ws ↔ w < ws.length) ∧
  (∃ last clock, (∀ w, last w ≤ clock) ∧ (∀ w, w ∉ ws → last w = 0) ∧
    (∀ w, w ∈ ws → 0 < last w) ∧ ws.Pairwise (fun u v => last v < last u) ∧
    MatOK c s last) ∧
  (∀ w, w < c.K → w ∉ ws → c.tag_vals s w = 0xFFFF) ∧
  (ws.map (c.tag_vals s)).Nodup ∧
  (∀ w, w ∈ ws → c.tag_vals s w ≠ 0xFFFF)

/-- The geometry is one for which real tags are shorter than 16 bits: `L = 2^a`,
`N = 2^b` with `a, b ≤ 7` and `L * N ≥ 2`. -/
def Geom (c : cache) : Prop :=
  ∃ a b, a ≤ 7 ∧ b ≤ 7 ∧ 0 < a + b ∧ c.L = 2 ^ a ∧ c.N = 2 ^ b

/-- Every set of the cache satisfies the set invariant for some recency order. -/
def AllInv (c : cache) : Prop :=
  0 < c.K ∧ ∀ s, ∃ ws, SetInv c s ws

/-! ## Observing a run -/

/-- What one iteration of the request loop did: the set it addressed, whether it hit,
the way it touched (the hit way, or the way chosen by `LRU`), the tag that way held
before the iteration, the tag of the request, and the tag that way holds after the
iteration. -/
structure access_event where
  set : Nat
  hit : Bool
  way : Nat
  old_tag : Nat
  tag : Nat
  new_tag : Nat
deriving DecidableEq, Repr

/-- The event of the iteration that processes `x` in state `c`, touches way `w` and
leaves the state `c2`. -/
def cache.event (c c2 : cache) (x : Nat) (hit : Bool) (w : Nat) : access_event :=
  { set := c.set x, hit := hit, way := w, old_tag := c.tag_vals (c.set x) w,
    tag := c.tag x, new_tag := c2.tag_vals (c.set x) w }

/-- The events of the iterations of `memory_requests` started in `c`, in order. -/
def cache.trace : cache → List Nat → Option (List access_event)
  | _, [] => some []
  | c, x :: xs =>
    match c.step x with
    | some (hit, w, c') =>
      (c'.trace xs).map (fun es => c.event c' x hit w :: es)
    | none => none

/-- The hit/miss outcome of each request, in order. -/
def cache.outcomes (c : cache) (mem_req : List Nat) : Option (List Bool) :=
  (c.trace mem_req).map (List.map access_event.hit)

/-- The misses of a run that fell into set `s`, in order. -/
def misses_in (s : Nat) (es : List access_event) : List access_event :=
  es.filter (fun e => decide (e.set = s) && !e.hit)

/-- The cache states a caller can observe: a cache constructed with a line size and
a set count that are powers of two and an associativity `1 ≤ K ≤ 255`, after any
number of completed calls of `memory_requests` on vectors of 16-bit addresses. -/
inductive Reachable : cache → Prop
  | new (a b K : Nat) (ha : a ≤ 7) (hb : b ≤ 7) (hK1 : 1 ≤ K) (hK2 : K ≤ 255) :
      Reachable (cache.new (2 ^ a) (2 ^ b) K)
  | requests (c c2 : cache) (info : hit_info) (xs : List Nat) (h : Reachable c)
      (hx : ∀ x ∈ xs, x < 65536) (hr : c.memory_requests xs = some (info, c2)) :
      Reachable c2

/-! ## Reference model: textbook LRU on recency lists -/

/-- One access to a set of the reference model. The set is the list `l` of its tags,
most recently accessed first. The access is a hit iff the tag is in the list; a hit
moves the tag to the front; a miss puts the tag at the front and drops the last tag
when the list already holds `K` tags. -/
def ref_access (K : Nat) (l : List Nat) (t : Nat) : Bool × List Nat :=
  if t ∈ l then (true, t :: l.erase t)
  else (false, t :: (if l.length = K then l.dropLast else l))

/-- The outcomes of the reference model on a request sequence: each address `x` goes
to set `(x div L) mod N` with tag `x div (L * N)`. -/
def ref_outcomes (L N K : Nat) : (Nat → List Nat) → List Nat → List Bool
  | _, [] => []
  | sets, x :: xs =>
    (ref_access K (sets (x / L % N)) (x / (L * N))).1 ::
      ref_outcomes L N K
        (Function.update sets (x / L % N) (ref_access K (sets (x / L % N)) (x / (L * N))).2) xs

/-- The sets of the reference model after a request sequence. -/
def ref_sets (L N K : Nat) : (Nat → List Nat) → List Nat → Nat → List Nat
  | sets, [] => sets
  | sets, x :: xs =>
    ref_sets L N K
      (Function.update sets (x / L % N) (ref_access K (sets (x / L % N)) (x / (L * N))).2) xs

/-- The counts of the reference model started with all sets empty: the number of
requests that hit and the number that missed, as plain integers. -/
def ref_requests (L N K : Nat) (mem_req : List Nat) : hit_info :=
  { misses := (ref_outcomes L N K (fun _ => []) mem_req).count false,
    hits := (ref_outcomes L N K (fun _ => []) mem_req).count true }

/-- The cache `c` and the reference sets `sets` agree: the tags of the accessed ways
of every set, read in recency order, are the reference list of that set. -/
def RefRel (c : cache) (sets : Nat → List Nat) : Prop :=
  ∀ s, ∃ ws, SetInv c s ws ∧ ws.map (c.tag_vals s) = sets s

/-! ## The variant `tut_6.cpp`

The class `cache` of `tut_6.cpp` has the same members, constructor, `LRU_addition`
and `LRU` as that of `cache_comp.cpp`; only the miss branch of `memory_requests`
differs. -/

/-- One iteration of the loop of `memory_requests` in `tut_6.cpp`: a hit is handled as
in `cache_comp.cpp`; a miss executes only `tag_vals[set][LRU(set)] = tag;`. -/
def tut_6.step (c : cache) (x : Nat) : Option (Bool × Nat × cache) :=
  match c.find_hit (c.set x) (c.tag x) with
  | some i => some (true, i, c.LRU_addition i (c.set x))
  | none =>
    match c.LRU (c.set x) with
    | some w =>
      some (false, w, { c with tag_vals := write2 c.tag_vals (c.set x) w (c.tag x) })
    | none => none

/-- The loop of `memory_requests` of `tut_6.cpp` over the remaining requests. -/
def tut_6.requests_loop : cache → hit_info → List Nat → Option (hit_info × cache)
  | c, info, [] => some (info, c)
  | c, info, x :: xs =>
    match tut_6.step c x with
    | some (hit, _, c') => tut_6.requests_loop c' (info.count hit) xs
    | none => none

/-- `memory_requests(mem_req)` of `tut_6.cpp`: the returned `hit_info` together with
the cache state it leaves behind. -/
def tut_6.memory_requests (c : cache) (mem_req : List Nat) : Option (hit_info × cache) :=
  tut_6.requests_loop c { misses := 0, hits := 0 } mem_req

/-- The cache states a caller of `tut_6.cpp` can observe (compare `Reachable`). -/
inductive tut_6.Reachable : cache → Prop
  | new (a b K : Nat) (ha : a ≤ 7) (hb : b ≤ 7) (hK1 : 1 ≤ K) (hK2 : K ≤ 255) :
      tut_6.Reachable (cache.new (2 ^ a) (2 ^ b) K)
  | requests (c c2 : cache) (info : hit_info) (xs : List Nat) (h : tut_6.Reachable c)
      (hx : ∀ x ∈ xs, x < 65536) (hr : tut_6.memory_requests c xs = some (info, c2)) :
      tut_6.Reachable c2

/-! ## Access history -/

/-- Time stamps of a run: starting from the stamps `f` at time `t`, the event number
`k` of `es` (counted from 1) stamps the way it touched with `t + k`. -/
def stamps : List access_event → Nat → (Nat → Nat → Nat) → Nat → Nat → Nat
  | [], _, f => f
  | e :: es, t, f => stamps es (t + 1) (write2 f e.set e.way (t + 1))

/-- The time of the last access (hit or install) to way `w` of set `s` in the run
with events `es`: the position, counted from 1, of the last event that touched that
way, and `0` when the way was never accessed. -/
def last_access (es : List access_event) (s w : Nat) : Nat :=
  stamps es 0 (fun _ _ => 0) s w

/-- The cache state a call `memory_requests(mem_req)` leaves behind (the state is
kept when the call does not return). -/
def cache.state_after (c : cache) (mem_req : List Nat) : cache :=
  match c.memory_requests mem_req with
  | some (_, c2) => c2
  | none => c

/-- The counts returned by `memory_requests` of `tut_6.cpp`. -/
def tut_6.counts (c : cache) (mem_req : List Nat) : Option hit_info :=
  (tut_6.memory_requests c mem_req).map Prod.fst

/-- The request vector `x, y, x, y, ...` of `n` pairs. -/
def alternate : Nat → Nat → Nat → List Nat
  | 0, _, _ => []
  | n + 1, x, y => x :: y :: alternate n x y

/-! ## Arithmetic of the address fields -/

theorem log2Aux_two_pow (a : Nat) : ∀ fuel, a < fuel → log2Aux fuel (2 ^ a) = a := by
  induction a with
  | zero =>
    intro fuel h
    cases fuel with
    | zero => omega
    | succ f => simp [log2Aux]
  | succ a ih =>
    intro fuel h
    cases fuel with
    | zero => omega
    | succ f =>
      have h2 : 2 ≤ 2 ^ (a + 1) := by
        have := Nat.one_le_two_pow (n := a)
        rw [Nat.pow_succ]; omega
      have h3 : 2 ^ (a + 1) / 2 = 2 ^ a := by
        rw [Nat.pow_succ]; exact Nat.mul_div_cancel _ (by decide)
      simp only [log2Aux, h2, if_true, h3]
      rw [ih f (by omega)]

theorem log2_two_pow (a : Nat) : log2 (2 ^ a) = a :=
  log2Aux_two_pow a (2 ^ a) (Nat.lt_two_pow a)

theorem two_pow_lt_256 {a : Nat} (h : a ≤ 7) : 2 ^ a < 256 :=
  calc 2 ^ a ≤ 2 ^ 7 := Nat.pow_le_pow_right (by decide) h
    _ < 256 := by decide

@[simp] theorem new_L (Lin Nin Kin : Nat) : (cache.new Lin Nin Kin).L = Lin % 256 := rfl
@[simp] theorem new_N (Lin Nin Kin : Nat) : (cache.new Lin Nin Kin).N = Nin % 256 := rfl
@[simp] theorem new_K (Lin Nin Kin : Nat) : (cache.new Lin Nin Kin).K = Kin % 256 := rfl
@[simp] theorem new_tag_vals (Lin Nin Kin s i : Nat) :
    (cache.new Lin Nin Kin).tag_vals s i = 0xFFFF := rfl
@[simp] theorem new_real_LRU (Lin Nin Kin s i j : Nat) :
    (cache.new Lin Nin Kin).real_LRU s i j = 0 := rfl

theorem offset_eq (c : cache) (a : Nat) (hL : c.L = 2 ^ a) (x : Nat) :
    c.offset x = x % 2 ^ a := by
  simp [cache.offset, hL]

theorem set_eq (c : cache) (a b : Nat) (hL : c.L = 2 ^ a) (hN : c.N = 2 ^ b) (x : Nat) :
    c.set x = x / 2 ^ a % 2 ^ b := by
  simp [cache.set, cache.offsetSize, hL, hN, log2_two_pow, Nat.shiftRight_eq_div_pow]

theorem tag_eq (c : cache) (a b : Nat) (hL : c.L = 2 ^ a) (hN : c.N = 2 ^ b) (x : Nat) :
    c.tag x = x / 2 ^ (a + b) := by
  simp [cache.tag, cache.offsetSize, cache.setSize, hL, hN, log2_two_pow,
    Nat.shiftRight_eq_div_pow]

theorem tagSize_eq (c : cache) (a b : Nat) (hL : c.L = 2 ^ a) (hN : c.N = 2 ^ b) :
    c.tagSize = 16 - b - a := by
  simp [cache.tagSize, cache.offsetSize, cache.setSize, hL, hN, log2_two_pow]

theorem tag_lt_two_pow (a b x : Nat) (ha : a ≤ 7) (hb : b ≤ 7) (hx : x < 65536) :
    x / 2 ^ (a + b) < 2 ^ (16 - b - a) := by
  rw [Nat.div_lt_iff_lt_mul (Nat.two_pow_pos _), ← Nat.pow_add]
  have : 16 - b - a + (a + b) = 16 := by omega
  rw [this]; exact hx

theorem two_pow_le_32768 {n : Nat} (h : n ≤ 15) : 2 ^ n ≤ 32768 :=
  calc 2 ^ n ≤ 2 ^ 15 := Nat.pow_le_pow_right (by decide) h
    _ = 32768 := by decide


/-! ## The loops of `LRU_addition` and `LRU` in closed form -/

theorem foldl_row_ones (set line : Nat) (n : Nat) (m : Nat → Nat → Nat → Nat) (s i j : Nat) :
    (List.range n).foldl (fun m k => write3 m set line k 1) m s i j
      = if s = set ∧ i = line ∧ j < n then 1 else m s i j := by
  induction n with
  | zero => simp
  | succ n ih =>
    rw [List.range_succ, List.foldl_append]
    simp only [List.foldl_cons, List.foldl_nil, write3]
    rw [ih]
    split_ifs <;> first | rfl | (exfalso; omega)

theorem foldl_col_zeros (set line : Nat) (n : Nat) (m : Nat → Nat → Nat → Nat) (s i j : Nat) :
    (List.range n).foldl (fun m k => write3 m set k line 0) m s i j
      = if s = set ∧ j = line ∧ i < n then 0 else m s i j := by
  induction n with
  | zero => simp
  | succ n ih =>
    rw [List.range_succ, List.foldl_append]
    simp only [List.foldl_cons, List.foldl_nil, write3]
    rw [ih]
    split_ifs <;> first | rfl | (exfalso; omega)

@[simp] theorem LRU_addition_L (c : cache) (line set : Nat) :
    (c.LRU_addition line set).L = c.L := rfl
@[simp] theorem LRU_addition_N (c : cache) (line set : Nat) :
    (c.LRU_addition line set).N = c.N := rfl
@[simp] theorem LRU_addition_K (c : cache) (line set : Nat) :
    (c.LRU_addition line set).K = c.K := rfl
@[simp] theorem LRU_addition_tag_vals (c : cache) (line set : Nat) :
    (c.LRU_addition line set).tag_vals = c.tag_vals := rfl

theorem LRU_addition_real_LRU (c : cache) (line set s i j : Nat) :
    (c.LRU_addition line set).real_LRU s i j
      = if s = set ∧ j = line ∧ i < c.K then 0
        else if s = set ∧ i = line ∧ j < c.K then 1 else c.real_LRU s i j := by
  simp only [cache.LRU_addition]
  rw [foldl_col_zeros, foldl_row_ones]

theorem LRU_row_cons (row : Nat → Nat) :
    ∀ (js : List Nat) (j : Nat) (temp : Bool),
      LRU_row row (j :: js) temp = decide (∀ k ∈ j :: js, row k = 0) := by
  intro js
  induction js with
  | nil =>
    intro j temp
    by_cases h : row j = 0 <;> simp [LRU_row, h]
  | cons j2 js ih =>
    intro j temp
    by_cases h : row j = 0
    · rw [LRU_row, if_pos h, ih]
      simp [h]
    · simp [LRU_row, h]

theorem LRU_row_range (row : Nat → Nat) (K : Nat) (hK : 0 < K) (temp : Bool) :
    LRU_row row (List.range K) temp = decide (∀ j, j < K → row j = 0) := by
  obtain ⟨n, rfl⟩ : ∃ n, K = n + 1 := ⟨K - 1, by omega⟩
  have hne : List.range (n + 1) ≠ [] := by simp
  obtain ⟨j, js, hjs⟩ := List.exists_cons_of_ne_nil hne
  rw [hjs, LRU_row_cons, ← hjs]
  simp [List.mem_range]

theorem LRU_scan_eq_find (c : cache) (set : Nat) (hK : 0 < c.K) :
    ∀ (is : List Nat) (temp : Bool),
      LRU_scan c set is temp
        = is.find? (fun i => decide (∀ j, j < c.K → c.real_LRU set i j = 0)) := by
  intro is
  induction is with
  | nil => intro temp; rfl
  | cons i is ih =>
    intro temp
    rw [LRU_scan, LRU_row_range _ _ hK, List.find?_cons]
    cases hd : decide (∀ j, j < c.K → c.real_LRU set i j = 0)
    · simpa using ih false
    · simp

theorem LRU_eq_some (c : cache) (set w : Nat) (hK : 0 < c.K) :
    c.LRU set = some w ↔
      w < c.K ∧ (∀ j, j < c.K → c.real_LRU set w j = 0) ∧
        ∀ i, i < w → ∃ j, j < c.K ∧ c.real_LRU set i j ≠ 0 := by
  rw [cache.LRU, LRU_scan_eq_find c set hK, List.find?_range_eq_some]
  simp only [decide_eq_true_eq, List.mem_range, Bool.not_eq_true', decide_eq_false_iff_not,
    not_forall]
  constructor
  · rintro ⟨h1, h2, h3⟩
    refine ⟨h2, h1, fun i hi => ?_⟩
    obtain ⟨j, hj, hne⟩ := h3 i hi
    exact ⟨j, hj, hne⟩
  · rintro ⟨h1, h2, h3⟩
    refine ⟨h2, h1, fun i hi => ?_⟩
    obtain ⟨j, hj, hne⟩ := h3 i hi
    exact ⟨j, hj, hne⟩

theorem find_hit_eq_some (c : cache) (set tag w : Nat) :
    c.find_hit set tag = some w ↔
      w < c.K ∧ c.tag_vals set w = tag ∧ ∀ i, i < w → c.tag_vals set i ≠ tag := by
  rw [cache.find_hit, List.find?_range_eq_some]
  simp only [beq_iff_eq, List.mem_range, Bool.not_eq_true', beq_eq_false_iff_ne, ne_eq]
  constructor
  · rintro ⟨h1, h2, h3⟩; exact ⟨h2, h1, h3⟩
  · rintro ⟨h1, h2, h3⟩; exact ⟨h2, h1, h3⟩

theorem find_hit_eq_none (c : cache) (set tag : Nat) :
    c.find_hit set tag = none ↔ ∀ i, i < c.K → c.tag_vals set i ≠ tag := by
  rw [cache.find_hit, List.find?_range_eq_none]
  simp

/-! ## The recency matrix under `LRU_addition` -/

theorem MatOK_touch (c : cache) (s w clock : Nat) (last : Nat → Nat)
    (hm : MatOK c s last) (hc : ∀ v, last v ≤ clock) :
    MatOK (c.LRU_addition w s) s (Function.update last w (clock + 1)) := by
  intro i j hi hj
  have hi2 : i < c.K := hi
  have hj2 : j < c.K := hj
  rw [LRU_addition_real_LRU, hm i j hi2 hj2]
  simp only [Function.update_apply]
  have h1 := hc i
  have h2 := hc j
  split_ifs <;> first | rfl | (exfalso; simp only [true_and] at *; omega)

theorem MatOK_other (c : cache) (s s2 w : Nat) (last : Nat → Nat) (hne : s2 ≠ s)
    (hm : MatOK c s2 last) : MatOK (c.LRU_addition w s) s2 last := by
  intro i j hi hj
  rw [LRU_addition_real_LRU, hm i j hi hj]
  simp [hne]

theorem exists_min_stamp (f : Nat → Nat) : ∀ K, 0 < K → ∃ i, i < K ∧ ∀ j, j < K → f i ≤ f j := by
  intro K
  induction K with
  | zero => intro h; omega
  | succ n ih =>
    intro _
    by_cases hn : n = 0
    · subst hn
      exact ⟨0, by omega, fun j hj => by have : j = 0 := by omega
                                         subst this; exact Nat.le_refl _⟩
    · obtain ⟨i, hi, hmin⟩ := ih (by omega)
      by_cases hle : f i ≤ f n
      · refine ⟨i, by omega, fun j hj => ?_⟩
        by_cases hjn : j = n
        · subst hjn; exact hle
        · exact hmin j (by omega)
      · refine ⟨n, by omega, fun j hj => ?_⟩
        by_cases hjn : j = n
        · subst hjn; exact Nat.le_refl _
        · have := hmin j (by omega)
          omega

theorem exists_LRU (c : cache) (s : Nat) (last : Nat → Nat) (hK : 0 < c.K)
    (hm : MatOK c s last) :
    ∃ w, c.LRU s = some w ∧ w < c.K ∧ (∀ j, j < c.K → last w ≤ last j) ∧
      ∀ i, i < w → ∃ j, j < c.K ∧ last j < last i := by
  have hex : ∃ i, i < c.K ∧ ∀ j, j < c.K → last i ≤ last j := exists_min_stamp last c.K hK
  classical
  refine ⟨Nat.find hex, ?_, (Nat.find_spec hex).1, (Nat.find_spec hex).2, ?_⟩
  · rw [LRU_eq_some c s _ hK]
    refine ⟨(Nat.find_spec hex).1, fun j hj => ?_, fun i hi => ?_⟩
    · rw [hm _ j (Nat.find_spec hex).1 hj]
      have := (Nat.find_spec hex).2 j hj
      simp; omega
    · have hnot := Nat.find_min hex hi
      have hiK : i < c.K := Nat.lt_trans hi (Nat.find_spec hex).1
      simp only [not_and, not_forall] at hnot
      obtain ⟨j, hj, hlt⟩ := hnot hiK
      refine ⟨j, hj, ?_⟩
      rw [hm i j hiK hj]
      simp; omega
  · intro i hi
    have hnot := Nat.find_min hex hi
    have hiK : i < c.K := Nat.lt_trans hi (Nat.find_spec hex).1
    simp only [not_and, not_forall] at hnot
    obtain ⟨j, hj, hlt⟩ := hnot hiK
    exact ⟨j, hj, by omega⟩

/-! ## The set invariant under one access -/

theorem pairwise_stamps_nodup {last : Nat → Nat} {ws : List Nat}
    (h : ws.Pairwise (fun u v => last v < last u)) : ws.Nodup := by
  refine List.Pairwise.imp ?_ h
  intro u v huv heq
  subst heq
  omega

theorem erase_getLast (ws : List Nat) (z : Nat) (hnd : ws.Nodup) (hz : ws.getLast? = some z) :
    ws.erase z = ws.dropLast := by
  have hne : ws ≠ [] := by
    intro h; subst h; simp at hz
  have hz2 : ws.getLast hne = z := by
    rw [List.getLast?_eq_getLast _ hne] at hz
    exact Option.some.inj hz
  have hsplit : ws.dropLast ++ [z] = ws := by
    rw [← hz2]; exact List.dropLast_concat_getLast hne
  have hnotin : z ∉ ws.dropLast := by
    intro hin
    rw [← hsplit] at hnd
    have := (List.nodup_append.1 hnd).2.2
    exact this hin (List.mem_singleton_self z)
  conv_lhs => rw [← hsplit]
  rw [List.erase_append_right _ hnotin]
  simp

theorem SetInv_touch (c : cache) (T2 : Nat → Nat → Nat) (s w : Nat) (ws : List Nat)
    (hinv : SetInv c s ws) (hw : w < c.K) (hmem : w ∈ ws ∨ w = ws.length)
    (hT : ∀ v, v ≠ w → T2 s v = c.tag_vals s v)
    (hval : T2 s w ≠ 0xFFFF)
    (hnew : T2 s w ∉ (ws.erase w).map (c.tag_vals s)) :
    SetInv (({ c with tag_vals := T2 } : cache).LRU_addition w s) s (w :: ws.erase w) := by
  obtain ⟨hlen, hmemiff, ⟨last, clock, hclock, hzero, hpos, hpw, hmat⟩, hempty, hnodup, hvalid⟩ :=
    hinv
  have hnd : ws.Nodup := pairwise_stamps_nodup hpw
  have herase_mem : ∀ v, v ∈ ws.erase w ↔ v ≠ w ∧ v ∈ ws := fun v => hnd.mem_erase_iff
  have hlen2 : (w :: ws.erase w).length = if w ∈ ws then ws.length else ws.length + 1 := by
    by_cases hin : w ∈ ws
    · have := List.length_pos_of_mem hin
      simp only [List.length_cons, List.length_erase_of_mem hin, hin, if_true]
      omega
    · simp [hin, List.erase_of_not_mem hin]
  have hmap : (ws.erase w).map (T2 s) = (ws.erase w).map (c.tag_vals s) := by
    apply List.map_congr_left
    intro v hv
    exact hT v ((herase_mem v).1 hv).1
  refine ⟨?_, ?_, ⟨Function.update last w (clock + 1), clock + 1, ?_, ?_, ?_, ?_, ?_⟩,
    ?_, ?_, ?_⟩
  · -- at most K accessed ways
    rw [hlen2]
    show _ ≤ c.K
    by_cases hin : w ∈ ws
    · simp [hin, hlen]
    · rcases hmem with h | h
      · exact absurd h hin
      · simp only [hin, if_false]; omega
  · -- the accessed ways are an initial segment
    intro v
    rw [hlen2, List.mem_cons, herase_mem]
    by_cases hin : w ∈ ws
    · simp only [hin, if_true]
      rw [← hmemiff v]
      constructor
      · rintro (h | h)
        · subst h; exact hin
        · exact h.2
      · intro h
        by_cases hvw : v = w
        · exact Or.inl hvw
        · exact Or.inr ⟨hvw, h⟩
    · rcases hmem with h | h
      · exact absurd h hin
      · simp only [hin, if_false]
        rw [hmemiff v]
        omega
  · intro v
    simp only [Function.update_apply]
    split_ifs
    · exact Nat.le_refl _
    · exact Nat.le_succ_of_le (hclock v)
  · intro v hv
    rw [List.mem_cons, herase_mem] at hv
    have hvw : v ≠ w := fun h => hv (Or.inl h)
    have hvn : v ∉ ws := fun h => hv (Or.inr ⟨hvw, h⟩)
    simp only [Function.update_apply, hvw, if_false]
    exact hzero v hvn
  · intro v hv
    rw [List.mem_cons, herase_mem] at hv
    simp only [Function.update_apply]
    split_ifs with h
    · omega
    · rcases hv with h2 | h2
      · exact absurd h2 h
      · exact hpos v h2.2
  · rw [List.pairwise_cons]
    constructor
    · intro v hv
      have hvw : v ≠ w := ((herase_mem v).1 hv).1
      have := hclock v
      simp only [Function.update_apply, hvw, if_false, if_true]
      omega
    · have hsub : (ws.erase w).Pairwise (fun u v => last v < last u) :=
        List.Pairwise.sublist (List.erase_sublist w ws) hpw
      refine List.Pairwise.imp_of_mem ?_ hsub
      intro u v hu hv huv
      have huw : u ≠ w := ((herase_mem u).1 hu).1
      have hvw : v ≠ w := ((herase_mem v).1 hv).1
      simp only [Function.update_apply, huw, hvw, if_false]
      exact huv
  · exact MatOK_touch ({ c with tag_vals := T2 } : cache) s w clock last hmat hclock
  · -- untouched ways stay empty
    intro v hv hnot
    rw [List.mem_cons, herase_mem] at hnot
    have hvw : v ≠ w := fun h => hnot (Or.inl h)
    have hvn : v ∉ ws := fun h => hnot (Or.inr ⟨hvw, h⟩)
    show T2 s v = 0xFFFF
    rw [hT v hvw]
    exact hempty v hv hvn
  · -- tags stay pairwise different
    show ((w :: ws.erase w).map (T2 s)).Nodup
    rw [List.map_cons, hmap, List.nodup_cons]
    refine ⟨hnew, ?_⟩
    exact List.Nodup.sublist (List.Sublist.map _ (List.erase_sublist w ws)) hnodup
  · intro v hv
    show T2 s v ≠ 0xFFFF
    rw [List.mem_cons, herase_mem] at hv
    rcases hv with h | h
    · subst h; exact hval
    · rw [hT v h.1]; exact hvalid v h.2

theorem SetInv_frame (c c2 : cache) (s : Nat) (ws : List Nat) (hK : c2.K = c.K)
    (hT : c2.tag_vals s = c.tag_vals s) (hM : c2.real_LRU s = c.real_LRU s)
    (h : SetInv c s ws) : SetInv c2 s ws := by
  simp only [SetInv, MatOK, hK, hT, hM]
  exact h

theorem LRU_addition_frame (c : cache) (w s s2 : Nat) (hne : s2 ≠ s) :
    (c.LRU_addition w s).real_LRU s2 = c.real_LRU s2 := by
  funext i j
  rw [LRU_addition_real_LRU]
  simp [hne]

theorem write2_frame (T : Nat → Nat → Nat) (s w t s2 : Nat) (hne : s2 ≠ s) :
    write2 T s w t s2 = T s2 := by
  funext j
  simp [write2, hne]

theorem Geom.tag_lt (c : cache) (x : Nat) (hg : Geom c) (hx : x < 65536) :
    c.tag x < 0xFFFF := by
  obtain ⟨a, b, ha, hb, hab, hL, hN⟩ := hg
  rw [tag_eq c a b hL hN]
  have hlt := tag_lt_two_pow a b x ha hb hx
  have hle : 2 ^ (16 - b - a) ≤ 32768 := two_pow_le_32768 (by omega)
  omega

theorem step_spec (c : cache) (x s : Nat) (ws : List Nat) (hK : 0 < c.K)
    (hs : c.set x = s) (ht : c.tag x ≠ 0xFFFF) (hinv : SetInv c s ws) :
    ∃ hit w c2, c.step x = some (hit, w, c2) ∧ w < c.K ∧
      SetInv c2 s (w :: ws.erase w) ∧
      c2.L = c.L ∧ c2.N = c.N ∧ c2.K = c.K ∧
      (∀ s2, s2 ≠ s → c2.tag_vals s2 = c.tag_vals s2 ∧ c2.real_LRU s2 = c.real_LRU s2) ∧
      (hit = true → c.tag x ∈ ws.map (c.tag_vals s) ∧ w ∈ ws ∧
        c.tag_vals s w = c.tag x ∧ c2.tag_vals = c.tag_vals) ∧
      (hit = false → c.tag x ∉ ws.map (c.tag_vals s) ∧
        c.tag_vals s w = (if ws.length < c.K then 0xFFFF else c.tag_vals s w) ∧
        c2.tag_vals = write2 c.tag_vals s w (c.tag x) ∧
        ((ws.length < c.K ∧ w = ws.length ∧ ws.erase w = ws) ∨
          (ws.length = c.K ∧ ws.getLast? = some w ∧ ws.erase w = ws.dropLast))) := by
  have hinv0 := hinv
  obtain ⟨hlen, hmemiff, ⟨last, clock, hclock, hzero, hpos, hpw, hmat⟩, hempty, hnodup, hvalid⟩ :=
    hinv
  have hnd : ws.Nodup := pairwise_stamps_nodup hpw
  cases hfh : c.find_hit s (c.tag x) with
  | some w =>
    obtain ⟨hwK, hwt, _⟩ := (find_hit_eq_some c s (c.tag x) w).1 hfh
    have hin : w ∈ ws := by
      by_contra hnot
      exact ht (hwt ▸ hempty w hwK hnot)
    have hperm : (ws.map (c.tag_vals s)).Perm
        (c.tag_vals s w :: (ws.erase w).map (c.tag_vals s)) :=
      (List.perm_cons_erase hin).map (c.tag_vals s)
    have hnd2 := (List.Perm.nodup_iff hperm).1 hnodup
    refine ⟨true, w, c.LRU_addition w s, ?_, hwK, ?_, rfl, rfl, rfl, ?_, ?_, ?_⟩
    · simp only [cache.step, hs, hfh]
    · exact SetInv_touch c c.tag_vals s w ws hinv0 hwK (Or.inl hin) (fun _ _ => rfl)
        (hwt ▸ ht) (List.nodup_cons.1 hnd2).1
    · intro s2 hne
      exact ⟨rfl, LRU_addition_frame c w s s2 hne⟩
    · intro _
      exact ⟨List.mem_map.2 ⟨w, hin, hwt⟩, hin, hwt, rfl⟩
    · intro h; cases h
  | none =>
    have hnone := (find_hit_eq_none c s (c.tag x)).1 hfh
    have hnotin : c.tag x ∉ ws.map (c.tag_vals s) := by
      intro hin
      obtain ⟨v, hv, hvt⟩ := List.mem_map.1 hin
      have hvK : v < c.K := Nat.lt_of_lt_of_le ((hmemiff v).1 hv) hlen
      exact hnone v hvK hvt
    obtain ⟨w, hLRU, hwK, hmin, hfirst⟩ := exists_LRU c s last hK hmat
    have hcases : (ws.length < c.K ∧ w = ws.length ∧ ws.erase w = ws) ∨
        (ws.length = c.K ∧ ws.getLast? = some w ∧ ws.erase w = ws.dropLast) := by
      by_cases hfull : ws.length < c.K
      · left
        have hmnot : ws.length ∉ ws := fun h => Nat.lt_irrefl _ ((hmemiff _).1 h)
        have hm0 : last ws.length = 0 := hzero _ hmnot
        have hw0 : last w = 0 := by
          have := hmin ws.length hfull
          omega
        have hwnot : w ∉ ws := fun h => by
          have := hpos w h
          omega
        have hge : ¬ w < ws.length := fun h => hwnot ((hmemiff w).2 h)
        have hle : ¬ ws.length < w := fun h => by
          obtain ⟨j, _, hj⟩ := hfirst ws.length h
          omega
        have hweq : w = ws.length := by omega
        exact ⟨hfull, hweq, List.erase_of_not_mem hwnot⟩
      · right
        have hlenK : ws.length = c.K := by omega
        have hne : ws ≠ [] := by
          intro h; subst h; simp at hlenK; omega
        have hsplit : ws.dropLast ++ [ws.getLast hne] = ws := List.dropLast_concat_getLast hne
        have hzin : ws.getLast hne ∈ ws := List.getLast_mem hne
        have hzK : ws.getLast hne < c.K := hlenK ▸ (hmemiff _).1 hzin
        have hwin : w ∈ ws := (hmemiff w).2 (hlenK ▸ hwK)
        have hpw2 := hpw
        rw [← hsplit, List.pairwise_append] at hpw2
        have hwz : w = ws.getLast hne := by
          rw [← hsplit, List.mem_append, List.mem_singleton] at hwin
          rcases hwin with h | h
          · have h1 := hpw2.2.2 w h (ws.getLast hne) (List.mem_singleton_self _)
            have h2 := hmin _ hzK
            omega
          · exact h
        have hgl : ws.getLast? = some w := by
          rw [List.getLast?_eq_getLast _ hne, hwz]
        exact ⟨hlenK, hgl, erase_getLast ws w hnd hgl⟩
    have hmem : w ∈ ws ∨ w = ws.length := by
      rcases hcases with h | h
      · exact Or.inr h.2.1
      · exact Or.inl (List.mem_of_getLast?_eq_some h.2.1)
    refine ⟨false, w,
      ({ c with tag_vals := write2 c.tag_vals s w (c.tag x) } : cache).LRU_addition w s,
      ?_, hwK, ?_, rfl, rfl, rfl, ?_, ?_, ?_⟩
    · simp only [cache.step, hs, hfh, hLRU]
    · refine SetInv_touch c _ s w ws hinv0 hwK hmem ?_ ?_ ?_
      · intro v hv
        simp [write2, hv]
      · simpa [write2] using ht
      · have : write2 c.tag_vals s w (c.tag x) s w = c.tag x := by simp [write2]
        rw [this]
        intro hin
        exact hnotin (List.Sublist.subset (List.Sublist.map _ (List.erase_sublist w ws)) hin)
    · intro s2 hne
      exact ⟨write2_frame _ _ _ _ _ hne, LRU_addition_frame _ w s s2 hne⟩
    · intro h; cases h
    · intro _
      refine ⟨hnotin, ?_, rfl, hcases⟩
      rcases hcases with h | h
      · have hwnot : w ∉ ws := fun hin => by
          have := (hmemiff w).1 hin
          omega
        simp only [h.1, if_true]
        exact hempty w hwK hwnot
      · have : ¬ ws.length < c.K := by omega
        simp only [this, if_false]

/-! ## The request loop -/

theorem requests_loop_cons (c c2 : cache) (info : hit_info) (x w : Nat) (hit : Bool)
    (xs : List Nat) (h : c.step x = some (hit, w, c2)) :
    c.requests_loop info (x :: xs) = c2.requests_loop (info.count hit) xs := by
  simp only [cache.requests_loop, h]

theorem trace_cons (c c2 : cache) (x w : Nat) (hit : Bool) (xs : List Nat)
    (h : c.step x = some (hit, w, c2)) :
    c.trace (x :: xs) = (c2.trace xs).map (fun es => c.event c2 x hit w :: es) := by
  simp only [cache.trace, h]

theorem set_tag_congr (c c2 : cache) (hL : c2.L = c.L) (hN : c2.N = c.N) (x : Nat) :
    c2.set x = c.set x ∧ c2.tag x = c.tag x := by
  simp [cache.set, cache.tag, cache.offsetSize, cache.setSize, hL, hN]

theorem count_sum (info : hit_info) (hit : Bool) :
    ((info.count hit).hits + (info.count hit).misses) % 2 ^ 32
      = (info.hits + info.misses + 1) % 2 ^ 32 := by
  cases hit <;> simp only [hit_info.count, Bool.false_eq_true, if_false, if_true] <;> omega

theorem count_sum_exact (info : hit_info) (hit : Bool)
    (h : info.hits + info.misses + 1 < 2 ^ 32) :
    (info.count hit).hits + (info.count hit).misses = info.hits + info.misses + 1 := by
  cases hit <;> simp only [hit_info.count, Bool.false_eq_true, if_false, if_true] <;> omega

theorem MatInv_new (Lin Nin Kin : Nat) (hK : 0 < Kin % 256) : MatInv (cache.new Lin Nin Kin) := by
  refine ⟨hK, fun s => ⟨fun _ => 0, 0, fun _ => Nat.le_refl _, ?_⟩⟩
  intro i j _ _
  simp

theorem MatInv_touch (c : cache) (T2 : Nat → Nat → Nat) (w s : Nat) (h : MatInv c) :
    MatInv (({ c with tag_vals := T2 } : cache).LRU_addition w s) := by
  obtain ⟨hK, hall⟩ := h
  refine ⟨hK, fun s2 => ?_⟩
  obtain ⟨last, clock, hclock, hm⟩ := hall s2
  by_cases hs : s2 = s
  · subst hs
    refine ⟨Function.update last w (clock + 1), clock + 1, ?_, ?_⟩
    · intro v
      simp only [Function.update_apply]
      split_ifs
      · exact Nat.le_refl _
      · exact Nat.le_succ_of_le (hclock v)
    · exact MatOK_touch ({ c with tag_vals := T2 } : cache) s2 w clock last hm hclock
  · exact ⟨last, clock, hclock,
      MatOK_other ({ c with tag_vals := T2 } : cache) s s2 w last hs hm⟩

theorem step_total (c : cache) (x : Nat) (h : MatInv c) :
    ∃ hit w c2, c.step x = some (hit, w, c2) ∧ MatInv c2 := by
  cases hfh : c.find_hit (c.set x) (c.tag x) with
  | some w =>
    refine ⟨true, w, c.LRU_addition w (c.set x), ?_, ?_⟩
    · simp only [cache.step, hfh]
    · exact MatInv_touch c c.tag_vals w (c.set x) h
  | none =>
    obtain ⟨last, clock, hclock, hm⟩ := h.2 (c.set x)
    obtain ⟨w, hLRU, _⟩ := exists_LRU c (c.set x) last h.1 hm
    refine ⟨false, w, _, ?_, MatInv_touch c (write2 c.tag_vals (c.set x) w (c.tag x)) w (c.set x) h⟩
    simp only [cache.step, hfh, hLRU]

theorem loop_total (xs : List Nat) :
    ∀ (c : cache) (info : hit_info), MatInv c →
      ∃ info2 c2, c.requests_loop info xs = some (info2, c2) ∧ MatInv c2 ∧
        (info2.hits + info2.misses) % 2 ^ 32 = (info.hits + info.misses + xs.length) % 2 ^ 32 ∧
        (info.hits + info.misses + xs.length < 2 ^ 32 →
          info2.hits + info2.misses = info.hits + info.misses + xs.length) := by
  induction xs with
  | nil =>
    intro c info h
    exact ⟨info, c, rfl, h, rfl, fun _ => rfl⟩
  | cons x xs ih =>
    intro c info h
    obtain ⟨hit, w, c1, hstep, h1⟩ := step_total c x h
    obtain ⟨info2, c2, hloop, h2, hmod, hexact⟩ := ih c1 (info.count hit) h1
    refine ⟨info2, c2, ?_, h2, ?_, ?_⟩
    · rw [requests_loop_cons c c1 info x w hit xs hstep]; exact hloop
    · rw [hmod, Nat.add_mod, count_sum, ← Nat.add_mod, List.length_cons]
      congr 1; omega
    · intro hlt
      rw [List.length_cons] at hlt
      have hc := count_sum_exact info hit (by omega)
      rw [hexact (by omega), hc, List.length_cons]
      omega

theorem Reachable.matInv {c : cache} (h : Reachable c) : MatInv c := by
  induction h with
  | new a b K ha hb hK1 hK2 =>
    apply MatInv_new
    rw [Nat.mod_eq_of_lt (by omega)]; omega
  | requests c c2 info xs _ _ hr ih =>
    obtain ⟨info2, c3, hloop, h3, _⟩ := loop_total xs c { misses := 0, hits := 0 } ih
    rw [cache.memory_requests, hloop] at hr
    cases hr
    exact h3

theorem loop_replicate_hits (x : Nat) :
    ∀ (n : Nat) (c : cache) (info : hit_info), info.hits < 2 ^ 32 →
      (∃ w, c.find_hit (c.set x) (c.tag x) = some w) →
      ∃ c2, c.requests_loop info (List.replicate n x)
          = some ({ misses := info.misses, hits := (info.hits + n) % 2 ^ 32 }, c2) ∧
        ∃ w, c2.find_hit (c2.set x) (c2.tag x) = some w := by
  intro n
  induction n with
  | zero =>
    intro c info hlt hhit
    refine ⟨c, ?_, hhit⟩
    simp only [List.replicate_zero, cache.requests_loop, Nat.add_zero, Nat.mod_eq_of_lt hlt]
  | succ n ih =>
    intro c info hlt hhit
    obtain ⟨w, hw⟩ := hhit
    have hstep : c.step x = some (true, w, c.LRU_addition w (c.set x)) := by
      simp only [cache.step, hw]
    have hnext : ∃ w2, (c.LRU_addition w (c.set x)).find_hit
        ((c.LRU_addition w (c.set x)).set x) ((c.LRU_addition w (c.set x)).tag x) = some w2 :=
      ⟨w, hw⟩
    obtain ⟨c2, h2, hhit2⟩ := ih (c.LRU_addition w (c.set x)) (info.count true)
      (by simp only [hit_info.count, if_true]; exact Nat.mod_lt _ (by decide)) hnext
    refine ⟨c2, ?_, hhit2⟩
    rw [List.replicate_succ, requests_loop_cons c _ info x w true _ hstep, h2]
    simp only [hit_info.count, if_true]
    congr 3
    omega

theorem fresh_replicate (n : Nat) :
    ∃ c1, (cache.new 16 8 1).memory_requests (List.replicate (n + 1) 0)
        = some ({ misses := 1, hits := n % 2 ^ 32 }, c1) ∧
      ∃ w, c1.find_hit (c1.set 0) (c1.tag 0) = some w := by
  have hfh : (cache.new 16 8 1).find_hit ((cache.new 16 8 1).set 0) ((cache.new 16 8 1).tag 0)
      = none := by decide
  have hLRU : (cache.new 16 8 1).LRU ((cache.new 16 8 1).set 0) = some 0 := by decide
  obtain ⟨c0, hstep, hhit⟩ : ∃ c0, (cache.new 16 8 1).step 0 = some (false, 0, c0) ∧
      c0.find_hit (c0.set 0) (c0.tag 0) = some 0 :=
    ⟨({ cache.new 16 8 1 with
          tag_vals := write2 (cache.new 16 8 1).tag_vals ((cache.new 16 8 1).set 0) 0
            ((cache.new 16 8 1).tag 0) } : cache).LRU_addition 0 ((cache.new 16 8 1).set 0),
      by simp only [cache.step, hfh, hLRU], by decide⟩
  obtain ⟨c1, h1, hhit1⟩ := loop_replicate_hits 0 n c0
    (({ misses := 0, hits := 0 } : hit_info).count false) (by decide) ⟨0, hhit⟩
  refine ⟨c1, ?_, hhit1⟩
  rw [cache.memory_requests, List.replicate_succ,
    requests_loop_cons _ c0 _ 0 0 false _ hstep, h1]
  simp [hit_info.count]

/-! ## Splitting a request vector -/

theorem loop_append (xs ys : List Nat) :
    ∀ (c : cache) (info : hit_info),
      c.requests_loop info (xs ++ ys)
        = (c.requests_loop info xs).bind (fun p => p.2.requests_loop p.1 ys) := by
  induction xs with
  | nil => intro c info; rfl
  | cons x xs ih =>
    intro c info
    cases hstep : c.step x with
    | none => simp [cache.requests_loop, hstep]
    | some r =>
      obtain ⟨hit, w, c1⟩ := r
      rw [List.cons_append, requests_loop_cons c c1 info x w hit _ hstep,
        requests_loop_cons c c1 info x w hit _ hstep]
      exact ih c1 _

theorem count_add (p q : hit_info) (hit : Bool) :
    (p.add q).count hit = p.add (q.count hit) := by
  cases hit <;> simp only [hit_info.count, hit_info.add, Bool.false_eq_true, if_false, if_true,
    hit_info.mk.injEq, and_true, true_and] <;> omega

theorem loop_add (xs : List Nat) :
    ∀ (c c2 : cache) (q d p : hit_info), c.requests_loop q xs = some (d, c2) →
      c.requests_loop (p.add q) xs = some (p.add d, c2) := by
  induction xs with
  | nil =>
    intro c c2 q d p h
    simp only [cache.requests_loop, Option.some.injEq, Prod.mk.injEq] at h ⊢
    exact ⟨by rw [h.1], h.2⟩
  | cons x xs ih =>
    intro c c2 q d p h
    cases hstep : c.step x with
    | none => simp [cache.requests_loop, hstep] at h
    | some r =>
      obtain ⟨hit, w, c1⟩ := r
      rw [requests_loop_cons c c1 q x w hit _ hstep] at h
      rw [requests_loop_cons c c1 _ x w hit _ hstep, count_add]
      exact ih c1 c2 _ d p h

theorem count_bounded (info : hit_info) (hit : Bool) (h1 : info.hits < 2 ^ 32)
    (h2 : info.misses < 2 ^ 32) :
    (info.count hit).hits < 2 ^ 32 ∧ (info.count hit).misses < 2 ^ 32 := by
  cases hit <;> simp only [hit_info.count, Bool.false_eq_true, if_false, if_true] <;>
    constructor <;> omega

theorem loop_bounded (xs : List Nat) :
    ∀ (c c2 : cache) (q d : hit_info), c.requests_loop q xs = some (d, c2) →
      q.hits < 2 ^ 32 → q.misses < 2 ^ 32 → d.hits < 2 ^ 32 ∧ d.misses < 2 ^ 32 := by
  induction xs with
  | nil =>
    intro c c2 q d h h1 h2
    simp only [cache.requests_loop, Option.some.injEq, Prod.mk.injEq] at h
    rw [← h.1]; exact ⟨h1, h2⟩
  | cons x xs ih =>
    intro c c2 q d h h1 h2
    cases hstep : c.step x with
    | none => simp [cache.requests_loop, hstep] at h
    | some r =>
      obtain ⟨hit, w, c1⟩ := r
      rw [requests_loop_cons c c1 q x w hit _ hstep] at h
      exact ih c1 c2 _ d h (count_bounded q hit h1 h2).1 (count_bounded q hit h1 h2).2

theorem add_zero_of_bounded (p : hit_info) (h1 : p.hits < 2 ^ 32) (h2 : p.misses < 2 ^ 32) :
    p.add { misses := 0, hits := 0 } = p := by
  cases p
  simp only [hit_info.add, Nat.add_zero, hit_info.mk.injEq]
  exact ⟨Nat.mod_eq_of_lt h2, Nat.mod_eq_of_lt h1⟩

theorem compose_calls (c c1 c2 : cache) (xs ys : List Nat) (i1 i2 : hit_info)
    (h1 : c.memory_requests xs = some (i1, c1)) (h2 : c1.memory_requests ys = some (i2, c2)) :
    c.memory_requests (xs ++ ys) = some (i1.add i2, c2) := by
  have hb := loop_bounded xs c c1 _ i1 h1 (by decide) (by decide)
  have h3 := loop_add ys c1 c2 _ i2 i1 h2
  rw [add_zero_of_bounded i1 hb.1 hb.2] at h3
  rw [cache.memory_requests, loop_append, ← cache.memory_requests, h1]
  exact h3

theorem two_calls_eq (c c1 c2 : cache) (xs ys : List Nat) (i1 i2 : hit_info)
    (h1 : c.memory_requests xs = some (i1, c1)) (h2 : c1.memory_requests ys = some (i2, c2)) :
    c.two_calls xs ys = some (i1, i2) := by
  simp only [cache.two_calls, h1, h2]

/-! ## Refinement of the reference model -/

theorem SetInv_new (Lin Nin Kin s : Nat) : SetInv (cache.new Lin Nin Kin) s [] := by
  refine ⟨Nat.zero_le _, fun w => by simp, ⟨fun _ => 0, 0, fun _ => Nat.le_refl _,
    fun _ _ => rfl, fun w hw => by simp at hw, List.Pairwise.nil, ?_⟩,
    fun _ _ _ => rfl, List.nodup_nil, fun w hw => by simp at hw⟩
  intro i j _ _
  simp

theorem Geom_new (a b K : Nat) (ha : a ≤ 7) (hb : b ≤ 7) (hLN : 2 ≤ 2 ^ a * 2 ^ b) :
    Geom (cache.new (2 ^ a) (2 ^ b) K) := by
  refine ⟨a, b, ha, hb, ?_, ?_, ?_⟩
  · by_contra h
    have ha0 : a = 0 := by omega
    have hb0 : b = 0 := by omega
    subst ha0; subst hb0
    simp at hLN
  · simp [Nat.mod_eq_of_lt (two_pow_lt_256 ha)]
  · simp [Nat.mod_eq_of_lt (two_pow_lt_256 hb)]

theorem Geom.congr (c c2 : cache) (hL : c2.L = c.L) (hN : c2.N = c.N) (h : Geom c) :
    Geom c2 := by
  obtain ⟨a, b, ha, hb, hab, h1, h2⟩ := h
  exact ⟨a, b, ha, hb, hab, hL.trans h1, hN.trans h2⟩

theorem Geom.set_tag (c : cache) (x : Nat) (h : Geom c) :
    c.set x = x / c.L % c.N ∧ c.tag x = x / (c.L * c.N) := by
  obtain ⟨a, b, _, _, _, hL, hN⟩ := h
  rw [set_eq c a b hL hN, tag_eq c a b hL hN, hL, hN, Nat.pow_add]
  exact ⟨rfl, rfl⟩

theorem map_erase_of_nodup (f : Nat → Nat) :
    ∀ (ws : List Nat) (w : Nat), (ws.map f).Nodup → w ∈ ws →
      (ws.erase w).map f = (ws.map f).erase (f w) := by
  intro ws
  induction ws with
  | nil => intro w _ hw; simp at hw
  | cons v ws ih =>
    intro w hnd hw
    rw [List.map_cons, List.nodup_cons] at hnd
    by_cases hvw : v = w
    · subst hvw
      simp
    · have hw2 : w ∈ ws := by
        rcases List.mem_cons.1 hw with h | h
        · exact absurd h.symm hvw
        · exact h
      have hf : f v ≠ f w := by
        intro heq
        exact hnd.1 (heq ▸ List.mem_map_of_mem f hw2)
      rw [List.erase_cons_tail (by simpa using hvw), List.map_cons, List.map_cons,
        List.erase_cons_tail (by simpa using hf), ih w hnd.2 hw2]

theorem ref_step (c : cache) (sets : Nat → List Nat) (x : Nat) (hg : Geom c) (hK : 0 < c.K)
    (hrel : RefRel c sets) (hx : x < 65536) :
    ∃ w c2, c.step x
        = some ((ref_access c.K (sets (x / c.L % c.N)) (x / (c.L * c.N))).1, w, c2) ∧
      c2.L = c.L ∧ c2.N = c.N ∧ c2.K = c.K ∧
      RefRel c2 (Function.update sets (x / c.L % c.N)
        (ref_access c.K (sets (x / c.L % c.N)) (x / (c.L * c.N))).2) := by
  obtain ⟨hset, htag⟩ := hg.set_tag c x
  rw [← hset, ← htag]
  obtain ⟨ws, hinv, hmap⟩ := hrel (c.set x)
  have hne : c.tag x ≠ 0xFFFF := Nat.ne_of_lt (hg.tag_lt c x hx)
  have hnodup : (ws.map (c.tag_vals (c.set x))).Nodup := hinv.2.2.2.2.1
  have hnd : ws.Nodup := List.Nodup.of_map _ hnodup
  obtain ⟨hit, w, c2, hstep, hwK, hinv2, hL, hN, hK2, hframe, hhit, hmiss⟩ :=
    step_spec c x (c.set x) ws hK rfl hne hinv
  have hrest : ∀ l2, (w :: ws.erase w).map (c2.tag_vals (c.set x)) = l2 →
      RefRel c2 (Function.update sets (c.set x) l2) := by
    intro l2 hl2 s
    by_cases hs : s = c.set x
    · subst hs
      exact ⟨w :: ws.erase w, hinv2, by rw [hl2, Function.update_same]⟩
    · obtain ⟨ws2, hinv3, hmap3⟩ := hrel s
      obtain ⟨hT, hM⟩ := hframe s hs
      refine ⟨ws2, SetInv_frame c c2 s ws2 hK2 hT hM hinv3, ?_⟩
      rw [hT, hmap3, Function.update_noteq hs]
  cases hit with
  | true =>
    obtain ⟨hin, hwin, hwt, hT⟩ := hhit rfl
    rw [hmap] at hin
    have href : ref_access c.K (sets (c.set x)) (c.tag x)
        = (true, c.tag x :: (sets (c.set x)).erase (c.tag x)) := by
      simp only [ref_access, hin, if_true]
    rw [href]
    refine ⟨w, c2, hstep, hL, hN, hK2, hrest _ ?_⟩
    rw [List.map_cons, hT, hwt, map_erase_of_nodup _ ws w hnodup hwin, hwt, hmap]
  | false =>
    obtain ⟨hnotin, _, hT, hcases⟩ := hmiss rfl
    rw [hmap] at hnotin
    have hlen : (sets (c.set x)).length = ws.length := by rw [← hmap, List.length_map]
    have hmap2 : (ws.erase w).map (c2.tag_vals (c.set x))
        = (ws.erase w).map (c.tag_vals (c.set x)) := by
      apply List.map_congr_left
      intro v hv
      have hvw : v ≠ w := (hnd.mem_erase_iff.1 hv).1
      rw [hT]
      simp [write2, hvw]
    have hhead : c2.tag_vals (c.set x) w = c.tag x := by
      rw [hT]; simp [write2]
    rcases hcases with ⟨hlt, _, herase⟩ | ⟨heq, _, herase⟩
    · have href : ref_access c.K (sets (c.set x)) (c.tag x)
          = (false, c.tag x :: sets (c.set x)) := by
        have : ¬ (sets (c.set x)).length = c.K := by omega
        simp only [ref_access, hnotin, if_false, this]
      rw [href]
      refine ⟨w, c2, hstep, hL, hN, hK2, hrest _ ?_⟩
      rw [List.map_cons, hhead, hmap2, herase, hmap]
    · have href : ref_access c.K (sets (c.set x)) (c.tag x)
          = (false, c.tag x :: (sets (c.set x)).dropLast) := by
        have : (sets (c.set x)).length = c.K := by omega
        simp only [ref_access, hnotin, if_false, this, if_true]
      rw [href]
      refine ⟨w, c2, hstep, hL, hN, hK2, hrest _ ?_⟩
      rw [List.map_cons, hhead, hmap2, herase, List.map_dropLast, hmap]

theorem refinement_loop (xs : List Nat) :
    ∀ (c : cache) (sets : Nat → List Nat) (info : hit_info), Geom c → 0 < c.K →
      RefRel c sets → (∀ x ∈ xs, x < 65536) →
      c.outcomes xs = some (ref_outcomes c.L c.N c.K sets xs) ∧
        ∃ c2, c.requests_loop info xs
          = some ((ref_outcomes c.L c.N c.K sets xs).foldl hit_info.count info, c2) ∧
          RefRel c2 (ref_sets c.L c.N c.K sets xs) ∧ c2.K = c.K := by
  induction xs with
  | nil =>
    intro c sets info _ _ hrel _
    exact ⟨rfl, c, rfl, hrel, rfl⟩
  | cons x xs ih =>
    intro c sets info hg hK hrel hx
    obtain ⟨w, c1, hstep, hL, hN, hK1, hrel1⟩ :=
      ref_step c sets x hg hK hrel (hx x (List.mem_cons_self x xs))
    obtain ⟨hout, c2, hloop, hrel2, hK2⟩ := ih c1 _
      (info.count (ref_access c.K (sets (x / c.L % c.N)) (x / (c.L * c.N))).1)
      (hg.congr c c1 hL hN) (hK1 ▸ hK) hrel1
      (fun y hy => hx y (List.mem_cons_of_mem x hy))
    rw [hL, hN, hK1] at hout hloop hrel2
    constructor
    · simp only [cache.outcomes] at hout ⊢
      rw [trace_cons c c1 x w _ xs hstep]
      cases htr : c1.trace xs with
      | none => rw [htr] at hout; simp at hout
      | some es =>
        rw [htr] at hout
        simp only [Option.map_some', Option.some.injEq] at hout
        simp only [Option.map_some', List.map_cons, ref_outcomes, hout, cache.event]
    · refine ⟨c2, ?_, hrel2, hK2.trans hK1⟩
      rw [requests_loop_cons c c1 info x w _ xs hstep, hloop]
      simp only [ref_outcomes, List.foldl_cons]

theorem fresh_run (a b K : Nat) (xs : List Nat) (ha : a ≤ 7) (hb : b ≤ 7)
    (hLN : 2 ≤ 2 ^ a * 2 ^ b) (hK1 : 1 ≤ K) (hK2 : K ≤ 255) (hx : ∀ x ∈ xs, x < 65536) :
    (cache.new (2 ^ a) (2 ^ b) K).outcomes xs
        = some (ref_outcomes (2 ^ a) (2 ^ b) K (fun _ => []) xs) ∧
      ∃ c2, (cache.new (2 ^ a) (2 ^ b) K).memory_requests xs
          = some (hit_info.tally (ref_outcomes (2 ^ a) (2 ^ b) K (fun _ => []) xs), c2) ∧
        RefRel c2 (ref_sets (2 ^ a) (2 ^ b) K (fun _ => []) xs) ∧ c2.K = K := by
  have hL : (cache.new (2 ^ a) (2 ^ b) K).L = 2 ^ a := by
    simp [Nat.mod_eq_of_lt (two_pow_lt_256 ha)]
  have hN : (cache.new (2 ^ a) (2 ^ b) K).N = 2 ^ b := by
    simp [Nat.mod_eq_of_lt (two_pow_lt_256 hb)]
  have hK : (cache.new (2 ^ a) (2 ^ b) K).K = K := by
    simp [Nat.mod_eq_of_lt (show K < 256 by omega)]
  have hrel : RefRel (cache.new (2 ^ a) (2 ^ b) K) (fun _ => []) :=
    fun s => ⟨[], SetInv_new _ _ _ s, rfl⟩
  obtain ⟨hout, c2, hloop, hrel2, hK3⟩ :=
    refinement_loop xs (cache.new (2 ^ a) (2 ^ b) K) (fun _ => [])
      { misses := 0, hits := 0 } (Geom_new a b K ha hb hLN) (by rw [hK]; omega) hrel hx
  rw [hL, hN, hK] at hout hloop hrel2
  exact ⟨hout, c2, hloop, hrel2, hK3.trans hK⟩

theorem new_set_tag (a b K x : Nat) (ha : a ≤ 7) (hb : b ≤ 7) :
    (cache.new (2 ^ a) (2 ^ b) K).set x = x / 2 ^ a % 2 ^ b ∧
      (cache.new (2 ^ a) (2 ^ b) K).tag x = x / (2 ^ a * 2 ^ b) := by
  have hL : (cache.new (2 ^ a) (2 ^ b) K).L = 2 ^ a := by
    simp [Nat.mod_eq_of_lt (two_pow_lt_256 ha)]
  have hN : (cache.new (2 ^ a) (2 ^ b) K).N = 2 ^ b := by
    simp [Nat.mod_eq_of_lt (two_pow_lt_256 hb)]
  rw [set_eq _ a b hL hN, tag_eq _ a b hL hN, Nat.pow_add]
  exact ⟨rfl, rfl⟩

/-! ### The reference model on short sequences within one set -/

theorem ref_two_way_aba (L N x y : Nat) (hs : x / L % N = y / L % N)
    (ht : x / (L * N) ≠ y / (L * N)) :
    ref_outcomes L N 2 (fun _ => []) [x, y, x] = [false, false, true] := by
  simp only [ref_outcomes, ref_access]
  generalize y / L % N = sy at hs ⊢
  subst hs
  generalize x / L % N = s
  generalize x / (L * N) = tx at ht ⊢
  generalize y / (L * N) = ty at ht ⊢
  simp [ht, Ne.symm ht]

theorem ref_two_way_abc (L N x y z : Nat) (hxy : x / L % N = y / L % N)
    (hxz : x / L % N = z / L % N) (txy : x / (L * N) ≠ y / (L * N))
    (txz : x / (L * N) ≠ z / (L * N)) (tyz : y / (L * N) ≠ z / (L * N)) :
    ref_sets L N 2 (fun _ => []) [x, y, z] (x / L % N) = [z / (L * N), y / (L * N)] ∧
    ref_outcomes L N 2 (fun _ => []) [x, y, z, y] = [false, false, false, true] ∧
    ref_outcomes L N 2 (fun _ => []) [x, y, z, x] = [false, false, false, false] := by
  simp only [ref_sets, ref_outcomes, ref_access]
  generalize y / L % N = sy at hxy ⊢
  generalize z / L % N = sz at hxz ⊢
  subst hxy
  subst hxz
  generalize x / L % N = s
  generalize x / (L * N) = tx at txy txz ⊢
  generalize y / (L * N) = ty at txy tyz ⊢
  generalize z / (L * N) = tz at txz tyz ⊢
  simp [txy, txz, tyz, Ne.symm txy, Ne.symm txz, Ne.symm tyz]

/-! ## Warm-up: the order in which the ways of a set are filled -/

theorem AllInv_new (Lin Nin Kin : Nat) (hK : 0 < Kin % 256) : AllInv (cache.new Lin Nin Kin) :=
  ⟨hK, fun s => ⟨[], SetInv_new Lin Nin Kin s⟩⟩

theorem step_all (c : cache) (x s : Nat) (ws : List Nat) (hg : Geom c) (hall : AllInv c)
    (hx : x < 65536) (hinv : SetInv c s ws) :
    ∃ hit w c1, c.step x = some (hit, w, c1) ∧ Geom c1 ∧ AllInv c1 ∧ c1.K = c.K ∧
      ((c.set x ≠ s ∧ SetInv c1 s ws) ∨
       (c.set x = s ∧ SetInv c1 s (w :: ws.erase w) ∧ (hit = true → w ∈ ws) ∧
         (hit = false →
           c.tag_vals s w = (if ws.length < c.K then 0xFFFF else c.tag_vals s w) ∧
           (ws.length < c.K → w = ws.length ∧ ws.erase w = ws) ∧
           (¬ ws.length < c.K → w ∈ ws)))) := by
  have hne : c.tag x ≠ 0xFFFF := Nat.ne_of_lt (hg.tag_lt c x hx)
  obtain ⟨hK, hsets⟩ := hall
  have key : ∀ ws0, SetInv c (c.set x) ws0 →
      ∃ hit w c1, c.step x = some (hit, w, c1) ∧ Geom c1 ∧ AllInv c1 ∧ c1.K = c.K ∧
        SetInv c1 (c.set x) (w :: ws0.erase w) ∧
        (∀ s2 ws2, s2 ≠ c.set x → SetInv c s2 ws2 → SetInv c1 s2 ws2) ∧
        (hit = true → w ∈ ws0) ∧
        (hit = false →
           c.tag_vals (c.set x) w
              = (if ws0.length < c.K then 0xFFFF else c.tag_vals (c.set x) w) ∧
           (ws0.length < c.K → w = ws0.length ∧ ws0.erase w = ws0) ∧
           (¬ ws0.length < c.K → w ∈ ws0)) := by
    intro ws0 hinv0
    obtain ⟨hit, w, c1, hstep, _, hinv1, hL, hN, hK1, hframe, hhit, hmiss⟩ :=
      step_spec c x (c.set x) ws0 hK rfl hne hinv0
    have hfr : ∀ s2 ws2, s2 ≠ c.set x → SetInv c s2 ws2 → SetInv c1 s2 ws2 := by
      intro s2 ws2 hs2 h2
      obtain ⟨hT, hM⟩ := hframe s2 hs2
      exact SetInv_frame c c1 s2 ws2 hK1 hT hM h2
    refine ⟨hit, w, c1, hstep, hg.congr c c1 hL hN, ⟨hK1 ▸ hK, fun s2 => ?_⟩, hK1, hinv1, hfr,
      fun h => (hhit h).2.1, fun h => ?_⟩
    · by_cases hs2 : s2 = c.set x
      · subst hs2; exact ⟨_, hinv1⟩
      · obtain ⟨ws2, h2⟩ := hsets s2
        exact ⟨ws2, hfr s2 ws2 hs2 h2⟩
    · obtain ⟨_, hold, _, hcases⟩ := hmiss h
      refine ⟨hold, fun hlt => ?_, fun hnlt => ?_⟩
      · rcases hcases with h1 | h1
        · exact ⟨h1.2.1, h1.2.2⟩
        · omega
      · rcases hcases with h1 | h1
        · exact absurd h1.1 hnlt
        · exact List.mem_of_getLast?_eq_some h1.2.1
  by_cases hs : c.set x = s
  · subst hs
    obtain ⟨hit, w, c1, hstep, hg1, hall1, hK1, hinv1, _, hhit, hmiss⟩ := key ws hinv
    exact ⟨hit, w, c1, hstep, hg1, hall1, hK1, Or.inr ⟨rfl, hinv1, hhit, hmiss⟩⟩
  · obtain ⟨ws0, hinv0⟩ := hsets (c.set x)
    obtain ⟨hit, w, c1, hstep, hg1, hall1, hK1, _, hfr, _, _⟩ := key ws0 hinv0
    exact ⟨hit, w, c1, hstep, hg1, hall1, hK1, Or.inl ⟨hs, hfr s ws (Ne.symm hs) hinv⟩⟩

theorem length_touch_mem (ws : List Nat) (w : Nat) (h : w ∈ ws) :
    (w :: ws.erase w).length = ws.length := by
  have := List.length_pos_of_mem h
  rw [List.length_cons, List.length_erase_of_mem h]
  omega

theorem step_miss_store (c c1 : cache) (x w : Nat)
    (h : c.step x = some (false, w, c1)) : c1.tag_vals (c.set x) w = c.tag x := by
  unfold cache.step at h
  cases hfh : c.find_hit (c.set x) (c.tag x) with
  | some i =>
    rw [hfh] at h
    simp at h
  | none =>
    rw [hfh] at h
    cases hl : c.LRU (c.set x) with
    | none => rw [hl] at h; simp at h
    | some v =>
      rw [hl] at h
      simp only [Option.some.injEq, Prod.mk.injEq, true_and] at h
      obtain ⟨rfl, rfl⟩ := h
      show write2 c.tag_vals (c.set x) v (c.tag x) (c.set x) v = c.tag x
      simp [write2]

theorem fill_order (xs : List Nat) :
    ∀ (c : cache) (s : Nat) (ws : List Nat), Geom c → AllInv c → SetInv c s ws →
      (∀ x ∈ xs, x < 65536) →
      ∃ es, c.trace xs = some es ∧
        ∀ j e, (misses_in s es)[j]? = some e → ws.length + j < c.K →
          e.way = ws.length + j ∧ e.old_tag = 0xFFFF ∧ e.new_tag = e.tag ∧
            e.tag ≠ 0xFFFF := by
  induction xs with
  | nil =>
    intro c s ws _ _ _ _
    refine ⟨[], rfl, ?_⟩
    intro j e h
    simp [misses_in] at h
  | cons x xs ih =>
    intro c s ws hg hall hinv hx
    obtain ⟨hit, w, c1, hstep, hg1, hall1, hK1, hcase⟩ :=
      step_all c x s ws hg hall (hx x (List.mem_cons_self x xs)) hinv
    have hx2 : ∀ y ∈ xs, y < 65536 := fun y hy => hx y (List.mem_cons_of_mem x hy)
    rcases hcase with ⟨hs, hinv1⟩ | ⟨hs, hinv1, hhit, hmiss⟩
    · -- another set is addressed
      obtain ⟨es, htr, hes⟩ := ih c1 s ws hg1 hall1 hinv1 hx2
      refine ⟨c.event c1 x hit w :: es,
        by rw [trace_cons c c1 x w hit xs hstep, htr]; rfl, ?_⟩
      intro j e hj hlt
      have hmi : misses_in s (c.event c1 x hit w :: es) = misses_in s es := by
        simp [misses_in, cache.event, hs]
      rw [hmi] at hj
      exact hes j e hj (hK1 ▸ hlt)
    · obtain ⟨es, htr, hes⟩ := ih c1 s (w :: ws.erase w) hg1 hall1 hinv1 hx2
      refine ⟨c.event c1 x hit w :: es,
        by rw [trace_cons c c1 x w hit xs hstep, htr]; rfl, ?_⟩
      intro j e hj hlt
      cases hit with
      | true =>
        have hmi : misses_in s (c.event c1 x true w :: es) = misses_in s es := by
          simp [misses_in, cache.event]
        rw [hmi] at hj
        have hlen := length_touch_mem ws w (hhit rfl)
        have := hes j e hj (by rw [hlen, hK1]; exact hlt)
        rw [hlen] at this
        exact this
      | false =>
        obtain ⟨hold, hfill, _⟩ := hmiss rfl
        have hfull : ws.length < c.K := by omega
        obtain ⟨hw, herase⟩ := hfill hfull
        have hmi : misses_in s (c.event c1 x false w :: es)
            = c.event c1 x false w :: misses_in s es := by
          simp [misses_in, cache.event, hs]
        rw [hmi] at hj
        cases j with
        | zero =>
          simp only [List.getElem?_cons_zero, Option.some.injEq] at hj
          subst hj
          refine ⟨by simpa [cache.event] using hw, ?_, ?_, ?_⟩
          · show c.tag_vals (c.set x) w = 0xFFFF
            rw [hs, hold, if_pos hfull]
          · show c1.tag_vals (c.set x) w = c.tag x
            exact step_miss_store c c1 x w hstep
          · show c.tag x ≠ 0xFFFF
            exact Nat.ne_of_lt (hg.tag_lt c x (hx x (List.mem_cons_self x xs)))
        | succ j =>
          simp only [List.getElem?_cons_succ] at hj
          have hlen : (w :: ws.erase w).length = ws.length + 1 := by
            rw [herase, List.length_cons]
          have := hes j e hj (by rw [hlen, hK1]; omega)
          rw [hlen] at this
          refine ⟨by omega, this.2⟩

/-! ## Frame properties and reachable states -/

theorem step_geom (c c2 : cache) (x w : Nat) (hit : Bool)
    (h : c.step x = some (hit, w, c2)) : c2.L = c.L ∧ c2.N = c.N ∧ c2.K = c.K := by
  unfold cache.step at h
  cases hfh : c.find_hit (c.set x) (c.tag x) with
  | some i =>
    rw [hfh] at h
    simp only [Option.some.injEq, Prod.mk.injEq] at h
    obtain ⟨_, _, rfl⟩ := h
    exact ⟨rfl, rfl, rfl⟩
  | none =>
    rw [hfh] at h
    cases hl : c.LRU (c.set x) with
    | none => rw [hl] at h; simp at h
    | some v =>
      rw [hl] at h
      simp only [Option.some.injEq, Prod.mk.injEq] at h
      obtain ⟨_, _, rfl⟩ := h
      exact ⟨rfl, rfl, rfl⟩

theorem step_frame (c c2 : cache) (x w : Nat) (hit : Bool)
    (h : c.step x = some (hit, w, c2)) (s : Nat) (hs : s ≠ c.set x) :
    c2.tag_vals s = c.tag_vals s ∧ c2.real_LRU s = c.real_LRU s := by
  unfold cache.step at h
  cases hfh : c.find_hit (c.set x) (c.tag x) with
  | some i =>
    rw [hfh] at h
    simp only [Option.some.injEq, Prod.mk.injEq] at h
    obtain ⟨_, _, rfl⟩ := h
    exact ⟨rfl, LRU_addition_frame c i (c.set x) s hs⟩
  | none =>
    rw [hfh] at h
    cases hl : c.LRU (c.set x) with
    | none => rw [hl] at h; simp at h
    | some v =>
      rw [hl] at h
      simp only [Option.some.injEq, Prod.mk.injEq] at h
      obtain ⟨_, _, rfl⟩ := h
      exact ⟨write2_frame _ _ _ _ _ hs, LRU_addition_frame _ v (c.set x) s hs⟩

theorem loop_geom (xs : List Nat) :
    ∀ (c c2 : cache) (info info2 : hit_info), c.requests_loop info xs = some (info2, c2) →
      c2.L = c.L ∧ c2.N = c.N ∧ c2.K = c.K := by
  induction xs with
  | nil =>
    intro c c2 info info2 h
    simp only [cache.requests_loop, Option.some.injEq, Prod.mk.injEq] at h
    obtain ⟨_, rfl⟩ := h
    exact ⟨rfl, rfl, rfl⟩
  | cons x xs ih =>
    intro c c2 info info2 h
    cases hstep : c.step x with
    | none => simp [cache.requests_loop, hstep] at h
    | some r =>
      obtain ⟨hit, w, c1⟩ := r
      rw [requests_loop_cons c c1 info x w hit _ hstep] at h
      obtain ⟨h1, h2, h3⟩ := ih c1 c2 _ info2 h
      obtain ⟨g1, g2, g3⟩ := step_geom c c1 x w hit hstep
      exact ⟨h1.trans g1, h2.trans g2, h3.trans g3⟩

theorem Reachable.geometry {c : cache} (h : Reachable c) :
    ∃ a b, a ≤ 7 ∧ b ≤ 7 ∧ c.L = 2 ^ a ∧ c.N = 2 ^ b ∧ 1 ≤ c.K ∧ c.K ≤ 255 := by
  induction h with
  | new a b K ha hb hK1 hK2 =>
    refine ⟨a, b, ha, hb, ?_, ?_, ?_, ?_⟩
    · simp [Nat.mod_eq_of_lt (two_pow_lt_256 ha)]
    · simp [Nat.mod_eq_of_lt (two_pow_lt_256 hb)]
    · simp [Nat.mod_eq_of_lt (show K < 256 by omega)]; omega
    · simp [Nat.mod_eq_of_lt (show K < 256 by omega)]; omega
  | requests c c2 info xs _ _ hr ih =>
    obtain ⟨a, b, ha, hb, hL, hN, hK1, hK2⟩ := ih
    obtain ⟨g1, g2, g3⟩ := loop_geom xs c c2 _ info hr
    exact ⟨a, b, ha, hb, g1.trans hL, g2.trans hN, g3 ▸ hK1, g3 ▸ hK2⟩

theorem Geom_of_product (c : cache) (a b : Nat) (ha : a ≤ 7) (hb : b ≤ 7) (hL : c.L = 2 ^ a)
    (hN : c.N = 2 ^ b) (hLN : 2 ≤ c.L * c.N) : Geom c := by
  refine ⟨a, b, ha, hb, ?_, hL, hN⟩
  by_contra h
  have ha0 : a = 0 := by omega
  have hb0 : b = 0 := by omega
  subst ha0; subst hb0
  rw [hL, hN] at hLN
  simp at hLN

theorem loop_allInv (xs : List Nat) :
    ∀ (c c2 : cache) (info info2 : hit_info), Geom c → AllInv c → (∀ x ∈ xs, x < 65536) →
      c.requests_loop info xs = some (info2, c2) → AllInv c2 := by
  induction xs with
  | nil =>
    intro c c2 info info2 _ hall _ h
    simp only [cache.requests_loop, Option.some.injEq, Prod.mk.injEq] at h
    obtain ⟨_, rfl⟩ := h
    exact hall
  | cons x xs ih =>
    intro c c2 info info2 hg hall hx h
    obtain ⟨ws, hinv⟩ := hall.2 0
    obtain ⟨hit, w, c1, hstep, hg1, hall1, _, _⟩ :=
      step_all c x 0 ws hg hall (hx x (List.mem_cons_self x xs)) hinv
    rw [requests_loop_cons c c1 info x w hit _ hstep] at h
    exact ih c1 c2 _ info2 hg1 hall1 (fun y hy => hx y (List.mem_cons_of_mem x hy)) h

theorem Reachable.allInv {c : cache} (h : Reachable c) : 2 ≤ c.L * c.N → AllInv c := by
  induction h with
  | new a b K ha hb hK1 hK2 =>
    intro _
    apply AllInv_new
    rw [Nat.mod_eq_of_lt (by omega)]; omega
  | requests c c2 info xs hc hx hr ih =>
    intro hLN
    obtain ⟨g1, g2, _⟩ := loop_geom xs c c2 _ info hr
    rw [g1, g2] at hLN
    obtain ⟨a, b, ha, hb, hL, hN, _, _⟩ := hc.geometry
    exact loop_allInv xs c c2 _ info (Geom_of_product c a b ha hb hL hN hLN) (ih hLN) hx hr

theorem Reachable.state_after {c : cache} (h : Reachable c) (xs : List Nat)
    (hx : ∀ x ∈ xs, x < 65536) : Reachable (c.state_after xs) := by
  unfold cache.state_after
  cases hr : c.memory_requests xs with
  | none => exact h
  | some r =>
    obtain ⟨info, c2⟩ := r
    exact Reachable.requests c c2 info xs h hx hr

theorem Reachable.single_call {c : cache} (h : Reachable c) :
    ∃ a b K xs info, a ≤ 7 ∧ b ≤ 7 ∧ 1 ≤ K ∧ K ≤ 255 ∧
      (cache.new (2 ^ a) (2 ^ b) K).memory_requests xs = some (info, c) := by
  induction h with
  | new a b K ha hb hK1 hK2 =>
    exact ⟨a, b, K, [], { misses := 0, hits := 0 }, ha, hb, hK1, hK2, rfl⟩
  | requests c c2 info xs _ _ hr ih =>
    obtain ⟨a, b, K, xs0, info0, ha, hb, hK1, hK2, h0⟩ := ih
    exact ⟨a, b, K, xs0 ++ xs, info0.add info, ha, hb, hK1, hK2,
      compose_calls _ c c2 xs0 xs info0 info h0 hr⟩

/-! ## The variant `tut_6.cpp` -/

theorem tut_6.requests_loop_step (c c2 : cache) (info : hit_info) (x w : Nat) (hit : Bool)
    (xs : List Nat) (h : tut_6.step c x = some (hit, w, c2)) :
    tut_6.requests_loop c info (x :: xs) = tut_6.requests_loop c2 (info.count hit) xs := by
  simp only [tut_6.requests_loop, h]

theorem tut_6.step_returns (c : cache) (x : Nat) (h : MatInv c) :
    ∃ hit w c2, tut_6.step c x = some (hit, w, c2) ∧ MatInv c2 := by
  cases hfh : c.find_hit (c.set x) (c.tag x) with
  | some w =>
    refine ⟨true, w, c.LRU_addition w (c.set x), ?_, ?_⟩
    · simp only [tut_6.step, hfh]
    · exact MatInv_touch c c.tag_vals w (c.set x) h
  | none =>
    obtain ⟨last, clock, hclock, hm⟩ := h.2 (c.set x)
    obtain ⟨w, hLRU, _⟩ := exists_LRU c (c.set x) last h.1 hm
    refine ⟨false, w, { c with tag_vals := write2 c.tag_vals (c.set x) w (c.tag x) }, ?_, h⟩
    simp only [tut_6.step, hfh, hLRU]

theorem tut_6.loop_returns (xs : List Nat) :
    ∀ (c : cache) (info : hit_info), MatInv c →
      ∃ info2 c2, tut_6.requests_loop c info xs = some (info2, c2) ∧ MatInv c2 := by
  induction xs with
  | nil =>
    intro c info h
    exact ⟨info, c, rfl, h⟩
  | cons x xs ih =>
    intro c info h
    obtain ⟨hit, w, c1, hstep, h1⟩ := tut_6.step_returns c x h
    obtain ⟨info2, c2, hloop, h2⟩ := ih c1 (info.count hit) h1
    exact ⟨info2, c2, by rw [tut_6.requests_loop_step c c1 info x w hit xs hstep]; exact hloop, h2⟩

theorem tut_6.Reachable.matrix_inv {c : cache} (h : tut_6.Reachable c) : MatInv c := by
  induction h with
  | new a b K ha hb hK1 hK2 =>
    apply MatInv_new
    rw [Nat.mod_eq_of_lt (by omega)]; omega
  | requests c c2 info xs _ _ hr ih =>
    obtain ⟨info2, c3, hloop, h3⟩ := tut_6.loop_returns xs c { misses := 0, hits := 0 } ih
    rw [tut_6.memory_requests, hloop] at hr
    cases hr
    exact h3

theorem MatInv.zero_row (c : cache) (s : Nat) (h : MatInv c) :
    (∃ i, i < c.K ∧ ∀ j, j < c.K → c.real_LRU s i j = 0) ∧
      ∃ w, c.LRU s = some w ∧ w < c.K := by
  obtain ⟨last, clock, _, hm⟩ := h.2 s
  obtain ⟨w, hLRU, hw, _, _⟩ := exists_LRU c s last h.1 hm
  exact ⟨⟨w, hw, ((LRU_eq_some c s w h.1).1 hLRU).2.1⟩, w, hLRU, hw⟩

theorem tut_6.step_miss (c : cache) (x : Nat) (hK : 0 < c.K)
    (hnone : ∀ i, i < c.K → c.tag_vals (c.set x) i ≠ c.tag x)
    (hzero : ∀ j, j < c.K → c.real_LRU (c.set x) 0 j = 0) :
    tut_6.step c x
      = some (false, 0, { c with tag_vals := write2 c.tag_vals (c.set x) 0 (c.tag x) }) := by
  have hfh : c.find_hit (c.set x) (c.tag x) = none := (find_hit_eq_none c _ _).2 hnone
  have hLRU : c.LRU (c.set x) = some 0 :=
    (LRU_eq_some c _ 0 hK).2 ⟨hK, hzero, fun i hi => absurd hi (Nat.not_lt_zero i)⟩
  simp only [tut_6.step, hfh, hLRU]

theorem tut_6.miss_keeps_matrix (c c2 : cache) (x w : Nat)
    (h : tut_6.step c x = some (false, w, c2)) : c2.real_LRU = c.real_LRU := by
  unfold tut_6.step at h
  cases hfh : c.find_hit (c.set x) (c.tag x) with
  | some i =>
    rw [hfh] at h
    simp at h
  | none =>
    rw [hfh] at h
    cases hl : c.LRU (c.set x) with
    | none => rw [hl] at h; simp at h
    | some v =>
      rw [hl] at h
      simp only [Option.some.injEq, Prod.mk.injEq, true_and] at h
      obtain ⟨_, rfl⟩ := h
      rfl

theorem ref_aba (L N K x y : Nat) (hK : 2 ≤ K) (hs : x / L % N = y / L % N)
    (ht : x / (L * N) ≠ y / (L * N)) :
    ref_outcomes L N K (fun _ => []) [x, y, x] = [false, false, true] := by
  simp only [ref_outcomes, ref_access]
  generalize y / L % N = sy at hs ⊢
  subst hs
  generalize x / L % N = s
  generalize x / (L * N) = tx at ht ⊢
  generalize y / (L * N) = ty at ht ⊢
  have h0 : ¬ 0 = K := by omega
  have h1 : ¬ 1 = K := by omega
  simp [ht, Ne.symm ht, h0, h1]

/-! ### Direct-mapped caches: both files agree -/

theorem LRU_addition_direct (c : cache) (w s : Nat) (hK : c.K = 1) (hw : w < 1)
    (hzero : ∀ s i j, c.real_LRU s i j = 0) : c.LRU_addition w s = c := by
  have hm : (c.LRU_addition w s).real_LRU = c.real_LRU := by
    funext s2 i j
    rw [LRU_addition_real_LRU, hK, hzero]
    split_ifs <;> first | rfl | (exfalso; omega)
  cases c
  simp only [cache.LRU_addition] at hm ⊢
  simp only [cache.mk.injEq, true_and]
  exact hm

theorem step_direct (c : cache) (x : Nat) (hK : c.K = 1)
    (hzero : ∀ s i j, c.real_LRU s i j = 0) :
    tut_6.step c x = c.step x ∧
      ∀ hit w c2, c.step x = some (hit, w, c2) →
        c2.K = 1 ∧ ∀ s i j, c2.real_LRU s i j = 0 := by
  cases hfh : c.find_hit (c.set x) (c.tag x) with
  | some w =>
    have hw : w < 1 := hK ▸ ((find_hit_eq_some c _ _ w).1 hfh).1
    have hstep : c.step x = some (true, w, c) := by
      simp only [cache.step, hfh, LRU_addition_direct c w _ hK hw hzero]
    refine ⟨by simp only [tut_6.step, cache.step, hfh], ?_⟩
    intro hit w2 c2 h
    rw [hstep] at h
    simp only [Option.some.injEq, Prod.mk.injEq] at h
    obtain ⟨_, _, rfl⟩ := h
    exact ⟨hK, hzero⟩
  | none =>
    have hLRU : c.LRU (c.set x) = some 0 :=
      (LRU_eq_some c _ 0 (by omega)).2
        ⟨by omega, fun j _ => hzero _ _ _, fun i hi => absurd hi (Nat.not_lt_zero i)⟩
    have hfix : ({ c with tag_vals := write2 c.tag_vals (c.set x) 0 (c.tag x) } : cache).LRU_addition
        0 (c.set x) = { c with tag_vals := write2 c.tag_vals (c.set x) 0 (c.tag x) } :=
      LRU_addition_direct _ 0 _ hK (by decide) hzero
    have hstep : c.step x
        = some (false, 0, { c with tag_vals := write2 c.tag_vals (c.set x) 0 (c.tag x) }) := by
      simp only [cache.step, hfh, hLRU, hfix]
    refine ⟨by rw [hstep]; simp only [tut_6.step, hfh, hLRU], ?_⟩
    intro hit w2 c2 h
    rw [hstep] at h
    simp only [Option.some.injEq, Prod.mk.injEq] at h
    obtain ⟨_, _, rfl⟩ := h
    exact ⟨hK, hzero⟩

theorem loop_direct (xs : List Nat) :
    ∀ (c : cache) (info : hit_info), c.K = 1 → (∀ s i j, c.real_LRU s i j = 0) →
      tut_6.requests_loop c info xs = c.requests_loop info xs ∧
        ∀ info2 c2, c.requests_loop info xs = some (info2, c2) →
          ∀ s i j, c2.real_LRU s i j = 0 := by
  induction xs with
  | nil =>
    intro c info _ hzero
    refine ⟨rfl, ?_⟩
    intro info2 c2 h
    simp only [cache.requests_loop, Option.some.injEq, Prod.mk.injEq] at h
    obtain ⟨_, rfl⟩ := h
    exact hzero
  | cons x xs ih =>
    intro c info hK hzero
    obtain ⟨heq, hnext⟩ := step_direct c x hK hzero
    cases hstep : c.step x with
    | none =>
      rw [hstep] at heq
      refine ⟨by simp only [tut_6.requests_loop, cache.requests_loop, heq, hstep], ?_⟩
      intro info2 c2 h
      simp [cache.requests_loop, hstep] at h
    | some r =>
      obtain ⟨hit, w, c1⟩ := r
      rw [hstep] at heq
      obtain ⟨hK1, hzero1⟩ := hnext hit w c1 hstep
      obtain ⟨ih1, ih2⟩ := ih c1 (info.count hit) hK1 hzero1
      rw [tut_6.requests_loop_step c c1 info x w hit xs heq,
        requests_loop_cons c c1 info x w hit xs hstep]
      exact ⟨ih1, ih2⟩

/-! ## The recency matrix and the access history -/

theorem step_shape (c c1 : cache) (x w : Nat) (hit : Bool)
    (h : c.step x = some (hit, w, c1)) :
    ∃ T2, c1 = ({ c with tag_vals := T2 } : cache).LRU_addition w (c.set x) := by
  unfold cache.step at h
  cases hfh : c.find_hit (c.set x) (c.tag x) with
  | some i =>
    rw [hfh] at h
    simp only [Option.some.injEq, Prod.mk.injEq] at h
    obtain ⟨_, rfl, rfl⟩ := h
    exact ⟨c.tag_vals, rfl⟩
  | none =>
    rw [hfh] at h
    cases hl : c.LRU (c.set x) with
    | none => rw [hl] at h; simp at h
    | some v =>
      rw [hl] at h
      simp only [Option.some.injEq, Prod.mk.injEq] at h
      obtain ⟨_, rfl, rfl⟩ := h
      exact ⟨_, rfl⟩

theorem MatOK_congr_stamps (c : cache) (s : Nat) (last last2 : Nat → Nat)
    (h : ∀ w, last2 w = last w) (hm : MatOK c s last) : MatOK c s last2 := by
  intro i j hi hj
  rw [hm i j hi hj, h i, h j]

theorem run_history (xs : List Nat) :
    ∀ (c : cache) (info : hit_info) (f : Nat → Nat → Nat) (t : Nat), 0 < c.K →
      (∀ s w, f s w ≤ t) → (∀ s, MatOK c s (f s)) →
      (∀ s w1 w2, 0 < f s w1 → f s w1 = f s w2 → w1 = w2) →
      ∃ es info2 c2, c.trace xs = some es ∧ c.requests_loop info xs = some (info2, c2) ∧
        c2.K = c.K ∧ (∀ s, MatOK c2 s (stamps es t f s)) ∧
        (∀ s w1 w2, 0 < stamps es t f s w1 → stamps es t f s w1 = stamps es t f s w2 →
          w1 = w2) := by
  induction xs with
  | nil =>
    intro c info f t _ _ hm hinj
    exact ⟨[], info, c, rfl, rfl, rfl, hm, hinj⟩
  | cons x xs ih =>
    intro c info f t hK hb hm hinj
    have hmi : MatInv c := ⟨hK, fun s => ⟨f s, t, hb s, hm s⟩⟩
    obtain ⟨hit, w, c1, hstep, _⟩ := step_total c x hmi
    obtain ⟨T2, hc1⟩ := step_shape c c1 x w hit hstep
    have hK1 : c1.K = c.K := by rw [hc1]; rfl
    have hb1 : ∀ s v, write2 f (c.set x) w (t + 1) s v ≤ t + 1 := by
      intro s v
      simp only [write2]
      split_ifs
      · exact Nat.le_refl _
      · exact Nat.le_succ_of_le (hb s v)
    have hm1 : ∀ s, MatOK c1 s (write2 f (c.set x) w (t + 1) s) := by
      intro s
      rw [hc1]
      by_cases hs : s = c.set x
      · subst hs
        refine MatOK_congr_stamps _ _ (Function.update (f (c.set x)) w (t + 1)) _ ?_
          (MatOK_touch ({ c with tag_vals := T2 } : cache) (c.set x) w t (f (c.set x))
            (hm (c.set x)) (hb (c.set x)))
        intro v
        simp only [write2, true_and, Function.update_apply]
      · refine MatOK_congr_stamps _ _ (f s) _ ?_
          (MatOK_other ({ c with tag_vals := T2 } : cache) (c.set x) s w (f s) hs (hm s))
        intro v
        simp only [write2, hs, false_and, if_false]
    have hinj1 : ∀ s w1 w2, 0 < write2 f (c.set x) w (t + 1) s w1 →
        write2 f (c.set x) w (t + 1) s w1 = write2 f (c.set x) w (t + 1) s w2 → w1 = w2 := by
      intro s w1 w2
      have b1 := hb s w1
      have b2 := hb s w2
      simp only [write2]
      split_ifs with h1 h2 h2
      · intro _ _; rw [h1.2, h2.2]
      · intro _ h; omega
      · intro _ h; omega
      · intro hp h; exact hinj s w1 w2 hp h
    obtain ⟨es, info2, c2, htr, hloop, hK2, hm2, hinj2⟩ :=
      ih c1 (info.count hit) (write2 f (c.set x) w (t + 1)) (t + 1) (hK1 ▸ hK) hb1 hm1 hinj1
    refine ⟨c.event c1 x hit w :: es, info2, c2, ?_, ?_, hK2.trans hK1, ?_, ?_⟩
    · rw [trace_cons c c1 x w hit xs hstep, htr]; rfl
    · rw [requests_loop_cons c c1 info x w hit xs hstep]; exact hloop
    · exact hm2
    · exact hinj2

theorem fresh_history (Lin Nin K : Nat) (xs : List Nat) (hK1 : 1 ≤ K) (hK2 : K ≤ 255) :
    ∃ es info c, (cache.new Lin Nin K).trace xs = some es ∧
      (cache.new Lin Nin K).memory_requests xs = some (info, c) ∧ c.K = K ∧
      (∀ s, MatOK c s (last_access es s)) ∧
      (∀ s w1 w2, 0 < last_access es s w1 → last_access es s w1 = last_access es s w2 →
        w1 = w2) := by
  have hK : (cache.new Lin Nin K).K = K := by
    simp [Nat.mod_eq_of_lt (show K < 256 by omega)]
  obtain ⟨es, info, c, htr, hloop, hKc, hm, hinj⟩ :=
    run_history xs (cache.new Lin Nin K) { misses := 0, hits := 0 } (fun _ _ => 0) 0
      (by rw [hK]; omega) (fun _ _ => Nat.le_refl _)
      (fun s i j _ _ => by simp) (fun s w1 w2 h _ => absurd h (Nat.lt_irrefl 0))
  exact ⟨es, info, c, htr, hloop, hKc.trans hK, hm, hinj⟩

/-! ## Inclusion: a cache with one more way -/

theorem take_erase_take (t : Nat) :
    ∀ (l : List Nat) (n : Nat), ((l.take (n + 1)).erase t).take n = (l.erase t).take n := by
  intro l
  induction l with
  | nil => intro n; simp
  | cons h tl ih =>
    intro n
    rw [List.take_succ_cons]
    by_cases hht : h = t
    · subst hht
      rw [List.erase_cons_head, List.erase_cons_head, List.take_take, Nat.min_self]
    · rw [List.erase_cons_tail (by simpa using hht), List.erase_cons_tail (by simpa using hht)]
      cases n with
      | zero => simp
      | succ m => rw [List.take_succ_cons, List.take_succ_cons, ih m]

theorem ref_access_eq (K : Nat) (l : List Nat) (t : Nat) (hK : 1 ≤ K) (hl : l.length ≤ K) :
    ref_access K l t = (decide (t ∈ l), (t :: l.erase t).take K) := by
  obtain ⟨k, rfl⟩ : ∃ k, K = k + 1 := ⟨K - 1, by omega⟩
  unfold ref_access
  by_cases hin : t ∈ l
  · have hlen : (t :: l.erase t).length ≤ k + 1 := by
      have := List.length_pos_of_mem hin
      rw [List.length_cons, List.length_erase_of_mem hin]
      omega
    simp only [hin, if_true, decide_True, List.take_of_length_le hlen]
  · simp only [hin, if_false, decide_False, List.erase_of_not_mem hin, List.take_succ_cons]
    by_cases hfull : l.length = k + 1
    · simp only [hfull, if_true, List.dropLast_eq_take]
      rfl
    · simp only [hfull, if_false]
      rw [List.take_of_length_le (by omega)]

theorem ref_access_incl (K : Nat) (l l2 : List Nat) (t : Nat) (hK : 1 ≤ K)
    (hl : l2.length ≤ K + 1) (h : l = l2.take K) :
    ((ref_access K l t).1 = true → (ref_access (K + 1) l2 t).1 = true) ∧
      (ref_access K l t).2 = ((ref_access (K + 1) l2 t).2).take K ∧
      ((ref_access (K + 1) l2 t).2).length ≤ K + 1 := by
  have hlK : l.length ≤ K := by rw [h]; exact List.length_take_le K l2
  rw [ref_access_eq K l t hK hlK, ref_access_eq (K + 1) l2 t (by omega) hl]
  obtain ⟨k, rfl⟩ : ∃ k, K = k + 1 := ⟨K - 1, by omega⟩
  refine ⟨?_, ?_, List.length_take_le _ _⟩
  · simp only [decide_eq_true_eq]
    intro hin
    rw [h] at hin
    exact List.mem_of_mem_take hin
  · show (t :: l.erase t).take (k + 1) = ((t :: l2.erase t).take (k + 1 + 1)).take (k + 1)
    rw [List.take_take, Nat.min_eq_left (by omega), List.take_succ_cons, List.take_succ_cons,
      h, take_erase_take]

theorem ref_outcomes_incl (L N K : Nat) (hK : 1 ≤ K) (xs : List Nat) :
    ∀ (sets sets2 : Nat → List Nat),
      (∀ s, (sets2 s).length ≤ K + 1 ∧ sets s = (sets2 s).take K) →
      List.Forall₂ (fun h h2 => h = true → h2 = true)
        (ref_outcomes L N K sets xs) (ref_outcomes L N (K + 1) sets2 xs) := by
  induction xs with
  | nil => intro _ _ _; exact List.Forall₂.nil
  | cons x xs ih =>
    intro sets sets2 hrel
    obtain ⟨h1, h2, h3⟩ := ref_access_incl K (sets (x / L % N)) (sets2 (x / L % N))
      (x / (L * N)) hK (hrel _).1 (hrel _).2
    simp only [ref_outcomes]
    refine List.Forall₂.cons h1 (ih _ _ ?_)
    intro s
    by_cases hs : s = x / L % N
    · subst hs
      simp only [Function.update_same]
      exact ⟨h3, h2⟩
    · simp only [Function.update_noteq hs]
      exact hrel s

theorem count_true_mono (l l2 : List Bool)
    (h : List.Forall₂ (fun h h2 => h = true → h2 = true) l l2) :
    l.count true ≤ l2.count true := by
  induction h with
  | nil => exact Nat.le_refl _
  | @cons p q l1 l3 hab _ ih =>
    cases p <;> cases q <;> simp [List.count_cons] at hab ⊢ <;> omega

theorem foldl_count_hits (outs : List Bool) :
    ∀ (info : hit_info), info.hits < 2 ^ 32 →
      (outs.foldl hit_info.count info).hits = (info.hits + outs.count true) % 2 ^ 32 := by
  induction outs with
  | nil =>
    intro info h
    simp only [List.foldl_nil, List.count_nil, Nat.add_zero, Nat.mod_eq_of_lt h]
  | cons o outs ih =>
    intro info h
    rw [List.foldl_cons, ih]
    · cases o <;> simp [hit_info.count, List.count_cons]
      omega
    · cases o <;> simp only [hit_info.count, Bool.false_eq_true, if_false, if_true]
      · exact h
      · exact Nat.mod_lt _ (by decide)

theorem length_ref_outcomes (L N K : Nat) (xs : List Nat) :
    ∀ (sets : Nat → List Nat), (ref_outcomes L N K sets xs).length = xs.length := by
  induction xs with
  | nil => intro _; rfl
  | cons x xs ih =>
    intro sets
    simp only [ref_outcomes, List.length_cons, ih]

/-! ### Two conflicting addresses in turn -/

theorem loop_pairs_hit (L N x y : Nat) (hx : x < 65536) (hy : y < 65536)
    (hs : y / L % N = x / L % N) (ht : x / (L * N) ≠ y / (L * N)) (n : Nat) :
    ∀ (c : cache) (info : hit_info) (sets : Nat → List Nat), Geom c → c.L = L → c.N = N →
      c.K = 2 → RefRel c sets → sets (x / L % N) = [y / (L * N), x / (L * N)] →
      info.hits < 2 ^ 32 →
      ∃ c2, c.requests_loop info (alternate n x y)
        = some ({ misses := info.misses, hits := (info.hits + 2 * n) % 2 ^ 32 }, c2) := by
  induction n with
  | zero =>
    intro c info sets _ _ _ _ _ _ hlt
    refine ⟨c, ?_⟩
    simp only [alternate, cache.requests_loop, Nat.mul_zero, Nat.add_zero, Nat.mod_eq_of_lt hlt]
  | succ n ih =>
    intro c info sets hg hL hN hK hrel hsets hlt
    obtain ⟨w1, c1, hstep1, hL1, hN1, hK1, hrel1⟩ := ref_step c sets x hg (by omega) hrel hx
    rw [hL, hN, hK, hsets] at hstep1 hrel1
    have hg1 : Geom c1 := hg.congr c c1 hL1 hN1
    obtain ⟨w2, c2, hstep2, hL2, hN2, hK2, hrel2⟩ :=
      ref_step c1 _ y hg1 (by omega) hrel1 hy
    rw [hL1, hN1, hK1, hL, hN, hK, hs, Function.update_same] at hstep2 hrel2
    have ha1 : ref_access 2 [y / (L * N), x / (L * N)] (x / (L * N))
        = (true, [x / (L * N), y / (L * N)]) := by
      simp [ref_access, ht, Ne.symm ht]
    rw [ha1] at hstep1 hstep2 hrel2
    have ha2 : ref_access 2 [x / (L * N), y / (L * N)] (y / (L * N))
        = (true, [y / (L * N), x / (L * N)]) := by
      simp [ref_access, ht, Ne.symm ht]
    rw [ha2] at hstep2 hrel2
    obtain ⟨c3, h3⟩ := ih c2 ((info.count true).count true) _ (hg1.congr c1 c2 hL2 hN2)
      (by rw [hL2, hL1, hL]) (by rw [hN2, hN1, hN]) (by rw [hK2, hK1, hK]) hrel2
      (by rw [Function.update_same])
      (by simp only [hit_info.count, if_true]; exact Nat.mod_lt _ (by decide))
    refine ⟨c3, ?_⟩
    rw [alternate, requests_loop_cons c c1 info x w1 true _ hstep1,
      requests_loop_cons c1 c2 _ y w2 true _ hstep2, h3]
    simp only [hit_info.count, if_true, Option.some.injEq, Prod.mk.injEq, hit_info.mk.injEq,
      and_true, true_and]
    omega

theorem loop_pairs_miss (L N x y : Nat) (hx : x < 65536) (hy : y < 65536)
    (hs : y / L % N = x / L % N) (ht : x / (L * N) ≠ y / (L * N)) (n : Nat) :
    ∀ (c : cache) (info : hit_info) (sets : Nat → List Nat), Geom c → c.L = L → c.N = N →
      c.K = 1 → RefRel c sets → sets (x / L % N) = [y / (L * N)] →
      info.misses < 2 ^ 32 →
      ∃ c2, c.requests_loop info (alternate n x y)
        = some ({ misses := (info.misses + 2 * n) % 2 ^ 32, hits := info.hits }, c2) := by
  induction n with
  | zero =>
    intro c info sets _ _ _ _ _ _ hlt
    refine ⟨c, ?_⟩
    simp only [alternate, cache.requests_loop, Nat.mul_zero, Nat.add_zero, Nat.mod_eq_of_lt hlt]
  | succ n ih =>
    intro c info sets hg hL hN hK hrel hsets hlt
    obtain ⟨w1, c1, hstep1, hL1, hN1, hK1, hrel1⟩ := ref_step c sets x hg (by omega) hrel hx
    rw [hL, hN, hK, hsets] at hstep1 hrel1
    have hg1 : Geom c1 := hg.congr c c1 hL1 hN1
    obtain ⟨w2, c2, hstep2, hL2, hN2, hK2, hrel2⟩ :=
      ref_step c1 _ y hg1 (by omega) hrel1 hy
    rw [hL1, hN1, hK1, hL, hN, hK, hs, Function.update_same] at hstep2 hrel2
    have ha1 : ref_access 1 [y / (L * N)] (x / (L * N)) = (false, [x / (L * N)]) := by
      simp [ref_access, ht, Ne.symm ht]
    rw [ha1] at hstep1 hstep2 hrel2
    have ha2 : ref_access 1 [x / (L * N)] (y / (L * N)) = (false, [y / (L * N)]) := by
      simp [ref_access, ht, Ne.symm ht]
    rw [ha2] at hstep2 hrel2
    obtain ⟨c3, h3⟩ := ih c2 ((info.count false).count false) _ (hg1.congr c1 c2 hL2 hN2)
      (by rw [hL2, hL1, hL]) (by rw [hN2, hN1, hN]) (by rw [hK2, hK1, hK]) hrel2
      (by rw [Function.update_same])
      (by simp only [hit_info.count, Bool.false_eq_true, if_false]
          exact Nat.mod_lt _ (by decide))
    refine ⟨c3, ?_⟩
    rw [alternate, requests_loop_cons c c1 info x w1 false _ hstep1,
      requests_loop_cons c1 c2 _ y w2 false _ hstep2, h3]
    simp only [hit_info.count, Bool.false_eq_true, if_false, Option.some.injEq, Prod.mk.injEq,
      hit_info.mk.injEq, and_true, true_and]
    omega

theorem counts_append (c c1 c2 : cache) (xs ys : List Nat) (i1 i2 : hit_info)
    (h1 : c.requests_loop { misses := 0, hits := 0 } xs = some (i1, c1))
    (h2 : c1.requests_loop i1 ys = some (i2, c2)) : c.counts (xs ++ ys) = some i2 := by
  rw [cache.counts, cache.memory_requests, loop_append, h1]
  simp only [Option.some_bind]
  rw [h2]
  rfl

/-! ### The counters against plain counts of outcomes -/

theorem foldl_count_misses (outs : List Bool) :
    ∀ (info : hit_info), info.misses < 2 ^ 32 →
      (outs.foldl hit_info.count info).misses = (info.misses + outs.count false) % 2 ^ 32 := by
  induction outs with
  | nil =>
    intro info h
    simp only [List.foldl_nil, List.count_nil, Nat.add_zero, Nat.mod_eq_of_lt h]
  | cons o outs ih =>
    intro info h
    rw [List.foldl_cons, ih]
    · cases o <;> simp [hit_info.count, List.count_cons]
      omega
    · cases o <;> simp only [hit_info.count, Bool.false_eq_true, if_false, if_true]
      · exact Nat.mod_lt _ (by decide)
      · exact h

theorem tally_eq (outs : List Bool) :
    (hit_info.tally outs).hits = outs.count true % 2 ^ 32 ∧
      (hit_info.tally outs).misses = outs.count false % 2 ^ 32 := by
  have h1 := foldl_count_hits outs { misses := 0, hits := 0 } (by decide)
  have h2 := foldl_count_misses outs { misses := 0, hits := 0 } (by decide)
  simp only [Nat.zero_add] at h1 h2
  exact ⟨h1, h2⟩

theorem count_add_count (outs : List Bool) :
    outs.count true + outs.count false = outs.length := by
  induction outs with
  | nil => rfl
  | cons o outs ih =>
    cases o <;> simp [List.count_cons] <;> omega

theorem ref_outcomes_replicate (L N K x : Nat) :
    ∀ (n : Nat) (sets : Nat → List Nat), x / (L * N) ∈ sets (x / L % N) →
      ref_outcomes L N K sets (List.replicate n x) = List.replicate n true := by
  intro n
  induction n with
  | zero => intro _ _; rfl
  | succ n ih =>
    intro sets hin
    have ha : ref_access K (sets (x / L % N)) (x / (L * N))
        = (true, x / (L * N) :: (sets (x / L % N)).erase (x / (L * N))) := by
      simp only [ref_access, hin, if_true]
    rw [List.replicate_succ, List.replicate_succ, ref_outcomes, ha]
    rw [ih _ (by rw [Function.update_same]; exact List.mem_cons_self _ _)]

theorem ref_requests_replicate (n : Nat) :
    ref_requests 16 8 1 (List.replicate (n + 1) 0) = { misses := 1, hits := n } := by
  have hhead : ref_access 1 ((fun _ => []) (0 / 16 % 8)) (0 / (16 * 8)) = (false, [0]) := by
    decide
  have hout : ref_outcomes 16 8 1 (fun _ => []) (List.replicate (n + 1) 0)
      = false :: List.replicate n true := by
    rw [List.replicate_succ, ref_outcomes, hhead]
    rw [ref_outcomes_replicate 16 8 1 0 n _ (by decide)]
  rw [ref_requests, hout]
  simp [List.count_cons, List.count_replicate]

/-! ## Theorems -/

/-- C1, counterexample: on the direct-mapped cache (16, 8, 1) a vector of `2^32 + 1`
requests for address 0 returns misses = 1 and hits = 0, because the `uint32_t` hit
counter wraps; the sum of the counts is not the length of the vector. -/
theorem count_wraps :
    (cache.new 16 8 1).counts (List.replicate 4294967297 0)
        = some { misses := 1, hits := 0 } ∧
      (1 : Nat) + 0 ≠ (List.replicate 4294967297 (0 : Nat)).length := by
  obtain ⟨c1, h1, _⟩ := fresh_replicate 4294967296
  constructor
  · rw [cache.counts, h1]
    rfl
  · rw [List.length_replicate]
    decide

/-- C1 (amended): for every reachable cache state (any associativity `1 ≤ K ≤ 255`, line
size and set count powers of two) and every request vector of fewer than `2^32`
addresses, `memory_requests` returns, and the returned counts satisfy
hits + misses = length of the vector. -/
theorem hits_add_misses (c : cache) (xs : List Nat) (hc : Reachable c)
    (hlen : xs.length < 2 ^ 32) :
    ∃ info c2, c.memory_requests xs = some (info, c2) ∧
      info.hits + info.misses = xs.length := by
  obtain ⟨info, c2, hloop, _, _, hexact⟩ :=
    loop_total xs c { misses := 0, hits := 0 } hc.matInv
  refine ⟨info, c2, hloop, ?_⟩
  have := hexact (by simpa using hlen)
  simpa using this

theorem hits_add_misses_witness :
    Reachable (cache.new (2 ^ 4) (2 ^ 1) 4) ∧ memory_inputs.length < 2 ^ 32 ∧
      ∃ info c2, (cache.new (2 ^ 4) (2 ^ 1) 4).memory_requests memory_inputs = some (info, c2) ∧
        info.hits + info.misses = memory_inputs.length :=
  ⟨Reachable.new 4 1 4 (by decide) (by decide) (by decide) (by decide), by decide,
    hits_add_misses _ _ (Reachable.new 4 1 4 (by decide) (by decide) (by decide) (by decide))
      (by decide)⟩

/-- C2, counterexample: on geometry (16, 8, 1) and `2^32 + 1` requests for address 0 the
reference model counts 1 miss and `2^32` hits, while `memory_requests` returns misses = 1
and hits = 0, because its `uint32_t` hit counter wraps. -/
theorem reference_counts_differ :
    (cache.new 16 8 1).counts (List.replicate 4294967297 0)
        = some { misses := 1, hits := 0 } ∧
      ref_requests 16 8 1 (List.replicate 4294967297 0)
        = { misses := 1, hits := 4294967296 } := by
  obtain ⟨c1, h1, _⟩ := fresh_replicate 4294967296
  constructor
  · rw [cache.counts, h1]
    rfl
  · exact ref_requests_replicate 4294967296

/-- C2 (amended): the MRU-matrix cache of `cache_comp.cpp` is true LRU. For line size `2^a`
and set count `2^b` (`a, b ≤ 7`) with lineSize*setCount ≥ 2, associativity `1 ≤ K ≤ 255`,
and every vector of 16-bit addresses processed from a freshly constructed cache,
`memory_requests` returns, and its per-address hit/miss outcomes are those of the reference
model on recency lists (hit iff the tag is in the list of its set, a hit moves the tag to
the front, a miss inserts at the front and drops the last tag of a list of `K` tags). The
returned hits and misses are the reference model's numbers of hits and of misses modulo
`2^32`, and equal them when the vector has fewer than `2^32` addresses. -/
theorem mru_matrix_is_lru (a b K : Nat) (xs : List Nat) (ha : a ≤ 7) (hb : b ≤ 7)
    (hLN : 2 ≤ 2 ^ a * 2 ^ b) (hK1 : 1 ≤ K) (hK2 : K ≤ 255) (hx : ∀ x ∈ xs, x < 65536) :
    (cache.new (2 ^ a) (2 ^ b) K).outcomes xs
        = some (ref_outcomes (2 ^ a) (2 ^ b) K (fun _ => []) xs) ∧
      ∃ info, (cache.new (2 ^ a) (2 ^ b) K).counts xs = some info ∧
        info.hits = (ref_requests (2 ^ a) (2 ^ b) K xs).hits % 2 ^ 32 ∧
        info.misses = (ref_requests (2 ^ a) (2 ^ b) K xs).misses % 2 ^ 32 ∧
        (xs.length < 2 ^ 32 → info = ref_requests (2 ^ a) (2 ^ b) K xs) := by
  obtain ⟨hout, c2, hreq, _, _⟩ := fresh_run a b K xs ha hb hLN hK1 hK2 hx
  obtain ⟨th, tm⟩ := tally_eq (ref_outcomes (2 ^ a) (2 ^ b) K (fun _ => []) xs)
  refine ⟨hout, _, by rw [cache.counts, hreq]; rfl, th, tm, ?_⟩
  intro hlen
  have hsum := count_add_count (ref_outcomes (2 ^ a) (2 ^ b) K (fun _ => []) xs)
  rw [length_ref_outcomes] at hsum
  have e1 : (hit_info.tally (ref_outcomes (2 ^ a) (2 ^ b) K (fun _ => []) xs)).hits
      = (ref_requests (2 ^ a) (2 ^ b) K xs).hits := by
    rw [th]; exact Nat.mod_eq_of_lt (by omega)
  have e2 : (hit_info.tally (ref_outcomes (2 ^ a) (2 ^ b) K (fun _ => []) xs)).misses
      = (ref_requests (2 ^ a) (2 ^ b) K xs).misses := by
    rw [tm]; exact Nat.mod_eq_of_lt (by omega)
  cases htl : hit_info.tally (ref_outcomes (2 ^ a) (2 ^ b) K (fun _ => []) xs) with
  | mk m h =>
    rw [htl] at e1 e2
    cases hrf : ref_requests (2 ^ a) (2 ^ b) K xs with
    | mk m2 h2 =>
      rw [hrf] at e1 e2
      simp only at e1 e2
      rw [e1, e2]

theorem mru_matrix_is_lru_witness :
    (2 ≤ 7 ∧ 1 ≤ 7 ∧ 2 ≤ 2 ^ 2 * 2 ^ 1 ∧ 1 ≤ 2 ∧ 2 ≤ 255 ∧
        ∀ x ∈ [0x0000, 0x0008, 0x0010, 0x0000, 0x0020, 0x0010, 0xFFFF], x < 65536) ∧
      (cache.new (2 ^ 2) (2 ^ 1) 2).outcomes [0x0000, 0x0008, 0x0010, 0x0000, 0x0020, 0x0010, 0xFFFF]
        = some (ref_outcomes (2 ^ 2) (2 ^ 1) 2 (fun _ => [])
            [0x0000, 0x0008, 0x0010, 0x0000, 0x0020, 0x0010, 0xFFFF]) ∧
      ∃ info, (cache.new (2 ^ 2) (2 ^ 1) 2).counts
            [0x0000, 0x0008, 0x0010, 0x0000, 0x0020, 0x0010, 0xFFFF] = some info ∧
        info.hits = (ref_requests (2 ^ 2) (2 ^ 1) 2
            [0x0000, 0x0008, 0x0010, 0x0000, 0x0020, 0x0010, 0xFFFF]).hits % 2 ^ 32 ∧
        info.misses = (ref_requests (2 ^ 2) (2 ^ 1) 2
            [0x0000, 0x0008, 0x0010, 0x0000, 0x0020, 0x0010, 0xFFFF]).misses % 2 ^ 32 ∧
        ([0x0000, 0x0008, 0x0010, 0x0000, 0x0020, 0x0010, 0xFFFF].length < 2 ^ 32 →
          info = ref_requests (2 ^ 2) (2 ^ 1) 2
            [0x0000, 0x0008, 0x0010, 0x0000, 0x0020, 0x0010, 0xFFFF]) :=
  ⟨by decide,
    mru_matrix_is_lru 2 1 2 [0x0000, 0x0008, 0x0010, 0x0000, 0x0020, 0x0010, 0xFFFF]
      (by decide) (by decide) (by decide) (by decide) (by decide) (by decide)⟩


/-- C3: on the 32-address trace of `main`, a freshly constructed cache returns
misses=23, hits=9 for geometry (16,8,1); misses=19, hits=13 for (16,4,2);
misses=17, hits=15 for (16,2,4); and misses=16, hits=16 for (16,1,8). -/
theorem harness_counts :
    (cache.new 16 8 1).counts memory_inputs = some { misses := 23, hits := 9 } ∧
    (cache.new 16 4 2).counts memory_inputs = some { misses := 19, hits := 13 } ∧
    (cache.new 16 2 4).counts memory_inputs = some { misses := 17, hits := 15 } ∧
    (cache.new 16 1 8).counts memory_inputs = some { misses := 16, hits := 16 } := by
  decide!

/-- C4: for lineSize `2^a` and setCount `2^b` with `a, b ≤ 7` the fields computed by
`memory_requests` are the mixed-radix digits of the address: offset = x mod L,
setIndex = (x div L) mod N, tag = x div (L*N), so offset < L, setIndex < N and
x = tag*L*N + setIndex*L + offset; for (16, 8) the addresses 0x0000 and 0x0010
give (offset 0, set 0, tag 0) and (offset 0, set 1, tag 0). -/
theorem address_decomposition (a b K x : Nat) (ha : a ≤ 7) (hb : b ≤ 7) :
    (cache.new (2 ^ a) (2 ^ b) K).offset x = x % 2 ^ a ∧
    (cache.new (2 ^ a) (2 ^ b) K).set x = x / 2 ^ a % 2 ^ b ∧
    (cache.new (2 ^ a) (2 ^ b) K).tag x = x / (2 ^ a * 2 ^ b) ∧
    (cache.new (2 ^ a) (2 ^ b) K).offset x < 2 ^ a ∧
    (cache.new (2 ^ a) (2 ^ b) K).set x < 2 ^ b ∧
    x = (cache.new (2 ^ a) (2 ^ b) K).tag x * 2 ^ a * 2 ^ b
        + (cache.new (2 ^ a) (2 ^ b) K).set x * 2 ^ a
        + (cache.new (2 ^ a) (2 ^ b) K).offset x ∧
    ((cache.new 16 8 1).offset 0x0000 = 0 ∧ (cache.new 16 8 1).set 0x0000 = 0 ∧
      (cache.new 16 8 1).tag 0x0000 = 0) ∧
    ((cache.new 16 8 1).offset 0x0010 = 0 ∧ (cache.new 16 8 1).set 0x0010 = 1 ∧
      (cache.new 16 8 1).tag 0x0010 = 0) := by
  have hL : (cache.new (2 ^ a) (2 ^ b) K).L = 2 ^ a := by
    simp [Nat.mod_eq_of_lt (two_pow_lt_256 ha)]
  have hN : (cache.new (2 ^ a) (2 ^ b) K).N = 2 ^ b := by
    simp [Nat.mod_eq_of_lt (two_pow_lt_256 hb)]
  have ho := offset_eq _ a hL x
  have hs := set_eq _ a b hL hN x
  have ht := tag_eq _ a b hL hN x
  have hpa : 0 < 2 ^ a := Nat.two_pow_pos a
  have hpb : 0 < 2 ^ b := Nat.two_pow_pos b
  refine ⟨ho, hs, ?_, ?_, ?_, ?_, by decide, by decide⟩
  · rw [ht, Nat.pow_add]
  · rw [ho]; exact Nat.mod_lt _ hpa
  · rw [hs]; exact Nat.mod_lt _ hpb
  · rw [ho, hs, ht, Nat.pow_add, ← Nat.div_div_eq_div_mul]
    have h1 := Nat.div_add_mod (x / 2 ^ a) (2 ^ b)
    have h2 := Nat.div_add_mod x (2 ^ a)
    calc x = 2 ^ a * (x / 2 ^ a) + x % 2 ^ a := h2.symm
      _ = 2 ^ a * (2 ^ b * (x / 2 ^ a / 2 ^ b) + x / 2 ^ a % 2 ^ b) + x % 2 ^ a := by rw [h1]
      _ = x / 2 ^ a / 2 ^ b * 2 ^ a * 2 ^ b + x / 2 ^ a % 2 ^ b * 2 ^ a + x % 2 ^ a := by ring

theorem address_decomposition_witness :
    (4 ≤ 7 ∧ 3 ≤ 7) ∧
    (cache.new (2 ^ 4) (2 ^ 3) 1).offset 0x2204 = 0x2204 % 2 ^ 4 ∧
    (cache.new (2 ^ 4) (2 ^ 3) 1).set 0x2204 = 0x2204 / 2 ^ 4 % 2 ^ 3 :=
  ⟨by decide, (address_decomposition 4 3 1 0x2204 (by decide) (by decide)).1,
    (address_decomposition 4 3 1 0x2204 (by decide) (by decide)).2.1⟩

/-- C5: for lineSize `2^a`, setCount `2^b` (`a, b ≤ 7`) with setBits + offsetBits > 0 and
every 16-bit address, the computed tag is below `2^tagBits`, where
tagBits = 16 - setBits - offsetBits < 16, and so differs from the value 0xFFFF that the
constructor writes into every empty slot. -/
theorem tag_ne_sentinel (a b K x : Nat) (ha : a ≤ 7) (hb : b ≤ 7) (hx : x < 65536)
    (hbits : 0 < (cache.new (2 ^ a) (2 ^ b) K).setSize
      + (cache.new (2 ^ a) (2 ^ b) K).offsetSize) :
    (cache.new (2 ^ a) (2 ^ b) K).tagSize
        = 16 - (cache.new (2 ^ a) (2 ^ b) K).setSize
          - (cache.new (2 ^ a) (2 ^ b) K).offsetSize ∧
    (cache.new (2 ^ a) (2 ^ b) K).tagSize < 16 ∧
    (cache.new (2 ^ a) (2 ^ b) K).tag x < 2 ^ (cache.new (2 ^ a) (2 ^ b) K).tagSize ∧
    (∀ s i, (cache.new (2 ^ a) (2 ^ b) K).tag x
        ≠ (cache.new (2 ^ a) (2 ^ b) K).tag_vals s i) ∧
    (∀ s i, (cache.new (2 ^ a) (2 ^ b) K).tag_vals s i = 0xFFFF) := by
  have hL : (cache.new (2 ^ a) (2 ^ b) K).L = 2 ^ a := by
    simp [Nat.mod_eq_of_lt (two_pow_lt_256 ha)]
  have hN : (cache.new (2 ^ a) (2 ^ b) K).N = 2 ^ b := by
    simp [Nat.mod_eq_of_lt (two_pow_lt_256 hb)]
  have hss : (cache.new (2 ^ a) (2 ^ b) K).setSize = b := by
    unfold cache.setSize; rw [hN, log2_two_pow]
  have hos : (cache.new (2 ^ a) (2 ^ b) K).offsetSize = a := by
    unfold cache.offsetSize; rw [hL, log2_two_pow]
  have hts := tagSize_eq _ a b hL hN
  have ht := tag_eq _ a b hL hN x
  rw [hss, hos] at hbits
  have hlt := tag_lt_two_pow a b x ha hb hx
  have hle : 2 ^ (16 - b - a) ≤ 32768 := two_pow_le_32768 (by omega)
  refine ⟨by rw [hts, hss, hos], by rw [hts]; omega, by rw [hts, ht]; exact hlt, ?_,
    fun _ _ => rfl⟩
  intro s i
  rw [ht, new_tag_vals]
  omega

theorem tag_ne_sentinel_witness :
    (4 ≤ 7 ∧ 3 ≤ 7 ∧ 0xFFFF < 65536) ∧
    (cache.new (2 ^ 4) (2 ^ 3) 1).tag 0xFFFF < 2 ^ (cache.new (2 ^ 4) (2 ^ 3) 1).tagSize :=
  ⟨by decide,
    (tag_ne_sentinel 4 3 1 0xFFFF (by decide) (by decide) (by decide) (by decide)).2.2.1⟩


/-- C6, counterexample: with lineSize = setCount = 1 the tag is the whole address, so on
the direct-mapped cache (1, 1, 1) the first access to address 0xFFFF matches the
empty-slot sentinel: the sequence [0xFFFF, 0xFFFF] returns misses = 0 and hits = 2. -/
theorem cold_start_sentinel_hit :
    (cache.new 1 1 1).counts [0xFFFF, 0xFFFF] = some { misses := 0, hits := 2 } := by
  decide

/-- C6 (amended): for associativity 1, line size `2^a` and set count `2^b` (`a, b ≤ 7`) with
lineSize*setCount ≥ 2, and every 16-bit address `x`, processing [x, x] on a freshly
constructed cache gives a miss followed by a hit and returns misses = 1, hits = 1. -/
theorem direct_mapped_cold_start (a b x : Nat) (ha : a ≤ 7) (hb : b ≤ 7)
    (hLN : 2 ≤ 2 ^ a * 2 ^ b) (hx : x < 65536) :
    (cache.new (2 ^ a) (2 ^ b) 1).outcomes [x, x] = some [false, true] ∧
      (cache.new (2 ^ a) (2 ^ b) 1).counts [x, x] = some { misses := 1, hits := 1 } := by
  obtain ⟨hout, c2, hreq, _, _⟩ := fresh_run a b 1 [x, x] ha hb hLN (by decide) (by decide)
    (by intro y hy; simp at hy; omega)
  have href : ref_outcomes (2 ^ a) (2 ^ b) 1 (fun _ => []) [x, x] = [false, true] := by
    simp [ref_outcomes, ref_access]
  constructor
  · rw [hout, href]
  · rw [cache.counts, hreq, href]
    rfl

theorem direct_mapped_cold_start_witness :
    (4 ≤ 7 ∧ 3 ≤ 7 ∧ 2 ≤ 2 ^ 4 * 2 ^ 3 ∧ 0x2204 < 65536) ∧
      (cache.new (2 ^ 4) (2 ^ 3) 1).counts [0x2204, 0x2204] = some { misses := 1, hits := 1 } :=
  ⟨by decide,
    (direct_mapped_cold_start 4 3 0x2204 (by decide) (by decide) (by decide) (by decide)).2⟩

/-- C7: two ways hold two tags without eviction. For associativity 2, line size `2^a` and
set count `2^b` (`a, b ≤ 7`) with lineSize*setCount ≥ 2, and 16-bit addresses `x`, `y` of
the same set with different tags, processing [x, y, x] on a freshly constructed cache
gives miss, miss, hit and returns misses = 2, hits = 1. -/
theorem two_way_no_eviction (a b x y : Nat) (ha : a ≤ 7) (hb : b ≤ 7)
    (hLN : 2 ≤ 2 ^ a * 2 ^ b) (hx : x < 65536) (hy : y < 65536)
    (hset : (cache.new (2 ^ a) (2 ^ b) 2).set x = (cache.new (2 ^ a) (2 ^ b) 2).set y)
    (htag : (cache.new (2 ^ a) (2 ^ b) 2).tag x ≠ (cache.new (2 ^ a) (2 ^ b) 2).tag y) :
    (cache.new (2 ^ a) (2 ^ b) 2).outcomes [x, y, x] = some [false, false, true] ∧
      (cache.new (2 ^ a) (2 ^ b) 2).counts [x, y, x] = some { misses := 2, hits := 1 } := by
  obtain ⟨hout, c2, hreq, _, _⟩ := fresh_run a b 2 [x, y, x] ha hb hLN (by decide) (by decide)
    (by intro z hz; simp at hz; omega)
  rw [(new_set_tag a b 2 x ha hb).1, (new_set_tag a b 2 y ha hb).1] at hset
  rw [(new_set_tag a b 2 x ha hb).2, (new_set_tag a b 2 y ha hb).2] at htag
  have href := ref_two_way_aba (2 ^ a) (2 ^ b) x y hset htag
  constructor
  · rw [hout, href]
  · rw [cache.counts, hreq, href]
    rfl

theorem two_way_no_eviction_witness :
    (4 ≤ 7 ∧ 2 ≤ 7 ∧ 2 ≤ 2 ^ 4 * 2 ^ 2 ∧ 0x0000 < 65536 ∧ 0x2200 < 65536 ∧
        (cache.new (2 ^ 4) (2 ^ 2) 2).set 0x0000 = (cache.new (2 ^ 4) (2 ^ 2) 2).set 0x2200 ∧
        (cache.new (2 ^ 4) (2 ^ 2) 2).tag 0x0000 ≠ (cache.new (2 ^ 4) (2 ^ 2) 2).tag 0x2200) ∧
      (cache.new (2 ^ 4) (2 ^ 2) 2).counts [0x0000, 0x2200, 0x0000]
        = some { misses := 2, hits := 1 } :=
  ⟨by decide,
    (two_way_no_eviction 4 2 0x0000 0x2200 (by decide) (by decide) (by decide) (by decide)
      (by decide) (by decide) (by decide)).2⟩

/-- C8: LRU eviction picks the older line. For associativity 2, line size `2^a` and set
count `2^b` (`a, b ≤ 7`) with lineSize*setCount ≥ 2, and 16-bit addresses `x`, `y`, `z` of
the same set with pairwise different tags: after [x, y, z] on a freshly constructed cache
the two ways of the set hold the tags of `y` and `z` and neither holds the tag of `x`;
[x, y, z, y] returns hits = 1 and [x, y, z, x] returns hits = 0. -/
theorem lru_evicts_older (a b x y z : Nat) (ha : a ≤ 7) (hb : b ≤ 7)
    (hLN : 2 ≤ 2 ^ a * 2 ^ b) (hx : x < 65536) (hy : y < 65536) (hz : z < 65536)
    (hxy : (cache.new (2 ^ a) (2 ^ b) 2).set x = (cache.new (2 ^ a) (2 ^ b) 2).set y)
    (hxz : (cache.new (2 ^ a) (2 ^ b) 2).set x = (cache.new (2 ^ a) (2 ^ b) 2).set z)
    (txy : (cache.new (2 ^ a) (2 ^ b) 2).tag x ≠ (cache.new (2 ^ a) (2 ^ b) 2).tag y)
    (txz : (cache.new (2 ^ a) (2 ^ b) 2).tag x ≠ (cache.new (2 ^ a) (2 ^ b) 2).tag z)
    (tyz : (cache.new (2 ^ a) (2 ^ b) 2).tag y ≠ (cache.new (2 ^ a) (2 ^ b) 2).tag z) :
    (∃ info c3, (cache.new (2 ^ a) (2 ^ b) 2).memory_requests [x, y, z] = some (info, c3) ∧
      (∃ w, w < 2 ∧ c3.tag_vals ((cache.new (2 ^ a) (2 ^ b) 2).set x) w
          = (cache.new (2 ^ a) (2 ^ b) 2).tag y) ∧
      (∃ w, w < 2 ∧ c3.tag_vals ((cache.new (2 ^ a) (2 ^ b) 2).set x) w
          = (cache.new (2 ^ a) (2 ^ b) 2).tag z) ∧
      (∀ w, w < 2 → c3.tag_vals ((cache.new (2 ^ a) (2 ^ b) 2).set x) w
          ≠ (cache.new (2 ^ a) (2 ^ b) 2).tag x)) ∧
    (cache.new (2 ^ a) (2 ^ b) 2).counts [x, y, z, y] = some { misses := 3, hits := 1 } ∧
    (cache.new (2 ^ a) (2 ^ b) 2).counts [x, y, z, x] = some { misses := 4, hits := 0 } := by
  rw [(new_set_tag a b 2 x ha hb).1, (new_set_tag a b 2 y ha hb).1] at hxy
  rw [(new_set_tag a b 2 x ha hb).1, (new_set_tag a b 2 z ha hb).1] at hxz
  rw [(new_set_tag a b 2 x ha hb).2, (new_set_tag a b 2 y ha hb).2] at txy
  rw [(new_set_tag a b 2 x ha hb).2, (new_set_tag a b 2 z ha hb).2] at txz
  rw [(new_set_tag a b 2 y ha hb).2, (new_set_tag a b 2 z ha hb).2] at tyz
  rw [(new_set_tag a b 2 x ha hb).1, (new_set_tag a b 2 x ha hb).2,
    (new_set_tag a b 2 y ha hb).2, (new_set_tag a b 2 z ha hb).2]
  refine ⟨?_, ?_, ?_⟩
  · obtain ⟨_, c3, hreq, hrel, hK⟩ := fresh_run a b 2 [x, y, z] ha hb hLN (by decide)
      (by decide) (by intro v hv; simp at hv; omega)
    have hsets := (ref_two_way_abc (2 ^ a) (2 ^ b) x y z hxy hxz txy txz tyz).1
    obtain ⟨ws, hinv, hmap⟩ := hrel (x / 2 ^ a % 2 ^ b)
    rw [hsets] at hmap
    obtain ⟨_, hmemiff, _, _, _, _⟩ := hinv
    have hlen : ws.length = 2 := by
      have := congrArg List.length hmap
      simpa using this
    have hmem : ∀ w, w < 2 → c3.tag_vals (x / 2 ^ a % 2 ^ b) w = z / (2 ^ a * 2 ^ b) ∨
        c3.tag_vals (x / 2 ^ a % 2 ^ b) w = y / (2 ^ a * 2 ^ b) := by
      intro w hw
      have hin : w ∈ ws := (hmemiff w).2 (hlen ▸ hw)
      have : c3.tag_vals (x / 2 ^ a % 2 ^ b) w ∈ ws.map (c3.tag_vals (x / 2 ^ a % 2 ^ b)) :=
        List.mem_map_of_mem _ hin
      rw [hmap] at this
      simpa using this
    have hex : ∀ t, t ∈ [z / (2 ^ a * 2 ^ b), y / (2 ^ a * 2 ^ b)] →
        ∃ w, w < 2 ∧ c3.tag_vals (x / 2 ^ a % 2 ^ b) w = t := by
      intro t ht
      rw [← hmap] at ht
      obtain ⟨w, hw, hwt⟩ := List.mem_map.1 ht
      exact ⟨w, hlen ▸ (hmemiff w).1 hw, hwt⟩
    refine ⟨_, c3, hreq, hex _ (by simp), hex _ (by simp), ?_⟩
    intro w hw
    rcases hmem w hw with h | h
    · rw [h]; exact Ne.symm txz
    · rw [h]; exact Ne.symm txy
  · obtain ⟨_, c4, hreq, _, _⟩ := fresh_run a b 2 [x, y, z, y] ha hb hLN (by decide)
      (by decide) (by intro v hv; simp at hv; omega)
    have href := (ref_two_way_abc (2 ^ a) (2 ^ b) x y z hxy hxz txy txz tyz).2.1
    rw [cache.counts, hreq, href]
    rfl
  · obtain ⟨_, c4, hreq, _, _⟩ := fresh_run a b 2 [x, y, z, x] ha hb hLN (by decide)
      (by decide) (by intro v hv; simp at hv; omega)
    have href := (ref_two_way_abc (2 ^ a) (2 ^ b) x y z hxy hxz txy txz tyz).2.2
    rw [cache.counts, hreq, href]
    rfl

theorem lru_evicts_older_witness :
    (4 ≤ 7 ∧ 2 ≤ 7 ∧ 2 ≤ 2 ^ 4 * 2 ^ 2 ∧ 0x0000 < 65536 ∧ 0x2200 < 65536 ∧ 0x1100 < 65536 ∧
        (cache.new (2 ^ 4) (2 ^ 2) 2).set 0x0000 = (cache.new (2 ^ 4) (2 ^ 2) 2).set 0x2200 ∧
        (cache.new (2 ^ 4) (2 ^ 2) 2).set 0x0000 = (cache.new (2 ^ 4) (2 ^ 2) 2).set 0x1100 ∧
        (cache.new (2 ^ 4) (2 ^ 2) 2).tag 0x0000 ≠ (cache.new (2 ^ 4) (2 ^ 2) 2).tag 0x2200 ∧
        (cache.new (2 ^ 4) (2 ^ 2) 2).tag 0x0000 ≠ (cache.new (2 ^ 4) (2 ^ 2) 2).tag 0x1100 ∧
        (cache.new (2 ^ 4) (2 ^ 2) 2).tag 0x2200 ≠ (cache.new (2 ^ 4) (2 ^ 2) 2).tag 0x1100) ∧
      (cache.new (2 ^ 4) (2 ^ 2) 2).counts [0x0000, 0x2200, 0x1100, 0x2200]
          = some { misses := 3, hits := 1 } ∧
      (cache.new (2 ^ 4) (2 ^ 2) 2).counts [0x0000, 0x2200, 0x1100, 0x0000]
          = some { misses := 4, hits := 0 } :=
  ⟨by decide,
    (lru_evicts_older 4 2 0x0000 0x2200 0x1100 (by decide) (by decide) (by decide) (by decide)
      (by decide) (by decide) (by decide) (by decide) (by decide) (by decide) (by decide)).2⟩

/-- C9: warm-up fill order. For line size `2^a` and set count `2^b` (`a, b ≤ 7`) with
lineSize*setCount ≥ 2, associativity `2 ≤ K ≤ 255`, and every vector of 16-bit addresses
processed from a freshly constructed cache, the run completes and, for every set, the
miss number `j+1` of that set (`j < K`) installs its tag into way `j`: the way it
touches is `j`, that way was still empty (held 0xFFFF) before the iteration, and after
the iteration it holds the tag of the request, which is not 0xFFFF. So the first `K`
misses of a set fill ways 0, 1, ..., K-1 in ascending order and overwrite no installed
tag. -/
theorem warm_up_fill_order (a b K : Nat) (xs : List Nat) (ha : a ≤ 7) (hb : b ≤ 7)
    (hLN : 2 ≤ 2 ^ a * 2 ^ b) (hK1 : 2 ≤ K) (hK2 : K ≤ 255) (hx : ∀ x ∈ xs, x < 65536) :
    ∃ es, (cache.new (2 ^ a) (2 ^ b) K).trace xs = some es ∧
      ∀ s j e, j < K → (misses_in s es)[j]? = some e →
        e.way = j ∧ e.old_tag = 0xFFFF ∧ e.new_tag = e.tag ∧ e.tag ≠ 0xFFFF := by
  have hK : (cache.new (2 ^ a) (2 ^ b) K).K = K := by
    simp [Nat.mod_eq_of_lt (show K < 256 by omega)]
  have hall : AllInv (cache.new (2 ^ a) (2 ^ b) K) :=
    AllInv_new _ _ _ (by rw [Nat.mod_eq_of_lt (show K < 256 by omega)]; omega)
  obtain ⟨es, htr, _⟩ := fill_order xs (cache.new (2 ^ a) (2 ^ b) K) 0 []
    (Geom_new a b K ha hb hLN) hall (SetInv_new _ _ _ 0) hx
  refine ⟨es, htr, fun s j e hj he => ?_⟩
  obtain ⟨es2, htr2, hes⟩ := fill_order xs (cache.new (2 ^ a) (2 ^ b) K) s []
    (Geom_new a b K ha hb hLN) hall (SetInv_new _ _ _ s) hx
  rw [htr] at htr2
  cases htr2
  have := hes j e he (by rw [hK]; simpa using hj)
  simpa using this

theorem warm_up_fill_order_witness :
    (4 ≤ 7 ∧ 1 ≤ 7 ∧ 2 ≤ 2 ^ 4 * 2 ^ 1 ∧ 2 ≤ 4 ∧ 4 ≤ 255 ∧
        ∀ x ∈ memory_inputs, x < 65536) ∧
      ∃ es, (cache.new (2 ^ 4) (2 ^ 1) 4).trace memory_inputs = some es ∧
        ∀ s j e, j < 4 → (misses_in s es)[j]? = some e →
          e.way = j ∧ e.old_tag = 0xFFFF ∧ e.new_tag = e.tag ∧ e.tag ≠ 0xFFFF :=
  ⟨by decide,
    warm_up_fill_order 4 1 4 memory_inputs (by decide) (by decide) (by decide) (by decide)
      (by decide) (by decide)⟩

/-- C10, counterexample: on the cache (16, 8, 1) a call with `2^31 + 1` requests for
address 0 returns misses = 1, hits = 2^31, a second call with `2^31` such requests returns
misses = 0, hits = 2^31, but the single call on the concatenation returns misses = 1,
hits = 0: the `uint32_t` counter wrapped, and 2^31 + 2^31 is not 0. -/
theorem sum_of_counts_wraps :
    (cache.new 16 8 1).two_calls (List.replicate 2147483649 0) (List.replicate 2147483648 0)
        = some ({ misses := 1, hits := 2147483648 }, { misses := 0, hits := 2147483648 }) ∧
      (cache.new 16 8 1).counts (List.replicate 2147483649 0 ++ List.replicate 2147483648 0)
        = some { misses := 1, hits := 0 } ∧
      (2147483648 : Nat) + 2147483648 ≠ 0 := by
  obtain ⟨c1, h1, w, hw⟩ := fresh_replicate 2147483648
  obtain ⟨c2, h2, _⟩ := loop_replicate_hits 0 2147483648 c1 { misses := 0, hits := 0 }
    (by decide) ⟨w, hw⟩
  have h2b : c1.memory_requests (List.replicate 2147483648 0)
      = some ({ misses := 0, hits := 2147483648 }, c2) := by
    rw [cache.memory_requests, h2]
    rfl
  refine ⟨?_, ?_, by decide⟩
  · rw [two_calls_eq _ c1 c2 _ _ _ _ h1 h2b]
    rfl
  · rw [cache.counts, compose_calls _ c1 c2 _ _ _ _ h1 h2b]
    rfl

/-- C10 (amended): `memory_requests` is a sequential fold whose counters restart at zero in
every call while the cache state persists. For every reachable cache state and request
vectors `xs`, `ys`, the calls `memory_requests(xs)` then `memory_requests(ys)` and the
single call `memory_requests(xs ++ ys)` all return; the counts of the single call are the
componentwise sum of the two calls' counts taken modulo `2^32` (the plain componentwise
sum when `xs` and `ys` together hold fewer than `2^32` addresses), and both ways leave the
same cache state, so the same tag store and recency matrices. -/
theorem requests_compose (c : cache) (xs ys : List Nat) (hc : Reachable c) :
    ∃ i1 c1 i2 c2, c.memory_requests xs = some (i1, c1) ∧
      c1.memory_requests ys = some (i2, c2) ∧
      ∃ c3, c.memory_requests (xs ++ ys) = some (i1.add i2, c3) ∧
        c3.tag_vals = c2.tag_vals ∧ c3.real_LRU = c2.real_LRU ∧
        (xs.length + ys.length < 2 ^ 32 →
          i1.add i2 = { misses := i1.misses + i2.misses, hits := i1.hits + i2.hits }) := by
  obtain ⟨i1, c1, h1, hm1, _, hx1⟩ := loop_total xs c { misses := 0, hits := 0 } hc.matInv
  obtain ⟨i2, c2, h2, _, _, hx2⟩ := loop_total ys c1 { misses := 0, hits := 0 } hm1
  refine ⟨i1, c1, i2, c2, h1, h2, c2, compose_calls c c1 c2 xs ys i1 i2 h1 h2, rfl, rfl, ?_⟩
  intro hlen
  have e1 := hx1 (by simp only [Nat.add_zero, Nat.zero_add]; omega)
  have e2 := hx2 (by simp only [Nat.add_zero, Nat.zero_add]; omega)
  simp only [Nat.add_zero, Nat.zero_add] at e1 e2
  simp only [hit_info.add, hit_info.mk.injEq]
  constructor
  · exact Nat.mod_eq_of_lt (by omega)
  · exact Nat.mod_eq_of_lt (by omega)

theorem requests_compose_witness :
    Reachable (cache.new (2 ^ 4) (2 ^ 2) 2) ∧
      ∃ i1 c1 i2 c2, (cache.new (2 ^ 4) (2 ^ 2) 2).memory_requests [0x0000, 0x2200] = some (i1, c1) ∧
        c1.memory_requests [0x1100, 0x0004] = some (i2, c2) ∧
        ∃ c3, (cache.new (2 ^ 4) (2 ^ 2) 2).memory_requests ([0x0000, 0x2200] ++ [0x1100, 0x0004])
            = some (i1.add i2, c3) ∧
          c3.tag_vals = c2.tag_vals ∧ c3.real_LRU = c2.real_LRU ∧
          ([0x0000, 0x2200].length + [0x1100, 0x0004].length < 2 ^ 32 →
            i1.add i2 = { misses := i1.misses + i2.misses, hits := i1.hits + i2.hits }) :=
  ⟨Reachable.new 4 2 2 (by decide) (by decide) (by decide) (by decide),
    requests_compose _ _ _ (Reachable.new 4 2 2 (by decide) (by decide) (by decide) (by decide))⟩

/-- C11: tag uniqueness is an invariant of `memory_requests`. In every state reachable
from a freshly constructed cache whose line size and set count are powers of two with
lineSize*setCount ≥ 2 (and `1 ≤ K ≤ 255`), no two distinct ways of one set hold the same
tag other than the empty-slot value 0xFFFF. -/
theorem tags_unique (c : cache) (s i j : Nat) (hc : Reachable c) (hLN : 2 ≤ c.L * c.N)
    (hi : i < c.K) (hj : j < c.K) (hij : i ≠ j) (hne : c.tag_vals s i ≠ 0xFFFF) :
    c.tag_vals s i ≠ c.tag_vals s j := by
  obtain ⟨ws, _, _, _, hempty, hnodup, _⟩ := (hc.allInv hLN).2 s
  intro heq
  have hiw : i ∈ ws := by
    by_contra hnot
    exact hne (hempty i hi hnot)
  have hjw : j ∈ ws := by
    by_contra hnot
    exact hne (heq ▸ hempty j hj hnot)
  exact hij (List.inj_on_of_nodup_map hnodup hiw hjw heq)

theorem tags_unique_witness :
    (Reachable ((cache.new (2 ^ 4) (2 ^ 2) 2).state_after [0x0000, 0x2200]) ∧
      2 ≤ ((cache.new (2 ^ 4) (2 ^ 2) 2).state_after [0x0000, 0x2200]).L
          * ((cache.new (2 ^ 4) (2 ^ 2) 2).state_after [0x0000, 0x2200]).N ∧
      0 < ((cache.new (2 ^ 4) (2 ^ 2) 2).state_after [0x0000, 0x2200]).K ∧
      1 < ((cache.new (2 ^ 4) (2 ^ 2) 2).state_after [0x0000, 0x2200]).K ∧
      (0 : Nat) ≠ 1 ∧
      ((cache.new (2 ^ 4) (2 ^ 2) 2).state_after [0x0000, 0x2200]).tag_vals 0 0 ≠ 0xFFFF) ∧
    ((cache.new (2 ^ 4) (2 ^ 2) 2).state_after [0x0000, 0x2200]).tag_vals 0 0
      ≠ ((cache.new (2 ^ 4) (2 ^ 2) 2).state_after [0x0000, 0x2200]).tag_vals 0 1 :=
  ⟨⟨(Reachable.new 4 2 2 (by decide) (by decide) (by decide) (by decide)).state_after _
      (by decide), by decide, by decide, by decide, by decide, by decide⟩,
    tags_unique _ 0 0 1
      ((Reachable.new 4 2 2 (by decide) (by decide) (by decide) (by decide)).state_after _
        (by decide))
      (by decide) (by decide) (by decide) (by decide) (by decide)⟩

/-- C12: the recency relation is a strict total order consistent with the access history.
For the state `c` that a cache constructed with any line size, set count and associativity
`1 ≤ K ≤ 255` reaches by processing any request vector (every reachable state is of this
form, see `Reachable.single_call`), and for every set `s` and ways
`i, j < K`: the diagonal cell `real_LRU[s][i][i]` is 0; and when `i ≠ j` have both been
accessed (hit or installed) at least once, `real_LRU[s][i][j] = 1` iff the last access to
way `i` is later than the last access to way `j`, and exactly one of `real_LRU[s][i][j]`,
`real_LRU[s][j][i]` is 1 (the other is 0); the relation is also transitive. -/
theorem recency_is_access_order (Lin Nin K : Nat) (xs : List Nat) (hK1 : 1 ≤ K)
    (hK2 : K ≤ 255) :
    ∃ es info c, (cache.new Lin Nin K).trace xs = some es ∧
      (cache.new Lin Nin K).memory_requests xs = some (info, c) ∧
      ∀ s i j, i < K → j < K →
        c.real_LRU s i i = 0 ∧
        (i ≠ j → 0 < last_access es s i → 0 < last_access es s j →
          (c.real_LRU s i j = 1 ↔ last_access es s j < last_access es s i) ∧
          ((c.real_LRU s i j = 1 ∧ c.real_LRU s j i = 0) ∨
            (c.real_LRU s i j = 0 ∧ c.real_LRU s j i = 1))) ∧
        (∀ k, k < K → c.real_LRU s i j = 1 → c.real_LRU s j k = 1 → c.real_LRU s i k = 1) := by
  obtain ⟨es, info, c, htr, hreq, hK, hm, hinj⟩ := fresh_history Lin Nin K xs hK1 hK2
  refine ⟨es, info, c, htr, hreq, ?_⟩
  intro s i j hi hj
  have hii := hm s i i (hK ▸ hi) (hK ▸ hi)
  have hij := hm s i j (hK ▸ hi) (hK ▸ hj)
  have hji := hm s j i (hK ▸ hj) (hK ▸ hi)
  refine ⟨by rw [hii]; simp, ?_, ?_⟩
  · intro hne hpi hpj
    have hdiff : last_access es s i ≠ last_access es s j :=
      fun h => hne (hinj s i j hpi h)
    rw [hij, hji]
    constructor
    · constructor
      · intro h
        by_contra hlt
        rw [if_neg hlt] at h
        exact absurd h (by decide)
      · intro h
        rw [if_pos h]
    · by_cases hlt : last_access es s j < last_access es s i
      · left
        rw [if_pos hlt, if_neg (by omega)]
        exact ⟨rfl, rfl⟩
      · right
        rw [if_neg hlt, if_pos (by omega)]
        exact ⟨rfl, rfl⟩
  · intro k hk h1 h2
    have hjk := hm s j k (hK ▸ hj) (hK ▸ hk)
    have hik := hm s i k (hK ▸ hi) (hK ▸ hk)
    rw [hij] at h1
    rw [hjk] at h2
    rw [hik]
    have a1 : last_access es s j < last_access es s i := by
      by_contra hlt
      rw [if_neg hlt] at h1
      exact absurd h1 (by decide)
    have a2 : last_access es s k < last_access es s j := by
      by_contra hlt
      rw [if_neg hlt] at h2
      exact absurd h2 (by decide)
    rw [if_pos (by omega)]

theorem recency_is_access_order_witness :
    (1 ≤ 2 ∧ 2 ≤ 255) ∧
    ∃ es info c, (cache.new 16 4 2).trace [0x0000, 0x2200, 0x0004] = some es ∧
      (cache.new 16 4 2).memory_requests [0x0000, 0x2200, 0x0004] = some (info, c) ∧
      ∀ s i j, i < 2 → j < 2 →
        c.real_LRU s i i = 0 ∧
        (i ≠ j → 0 < last_access es s i → 0 < last_access es s j →
          (c.real_LRU s i j = 1 ↔ last_access es s j < last_access es s i) ∧
          ((c.real_LRU s i j = 1 ∧ c.real_LRU s j i = 0) ∨
            (c.real_LRU s i j = 0 ∧ c.real_LRU s j i = 1))) ∧
        (∀ k, k < 2 → c.real_LRU s i j = 1 → c.real_LRU s j k = 1 → c.real_LRU s i k = 1) :=
  ⟨by decide, recency_is_access_order 16 4 2 [0x0000, 0x2200, 0x0004] (by decide) (by decide)⟩

/-- C13: for the state `c` that a cache constructed with associativity `1 ≤ K ≤ 255`
reaches by processing any request vector (every reachable state is of this form, see
`Reachable.single_call`), and every set `s` in which each of the `K` ways
has been accessed at least once: exactly one way `i < K` has a recency row that is zero in
all `K` columns, and the last access to that way is older than the last access to every
other way of the set. -/
theorem unique_zero_row_is_oldest (Lin Nin K : Nat) (xs : List Nat) (hK1 : 1 ≤ K)
    (hK2 : K ≤ 255) :
    ∃ es info c, (cache.new Lin Nin K).trace xs = some es ∧
      (cache.new Lin Nin K).memory_requests xs = some (info, c) ∧
      ∀ s, (∀ w, w < K → 0 < last_access es s w) →
        ∃ i, i < K ∧ (∀ j, j < K → c.real_LRU s i j = 0) ∧
          (∀ i2, i2 < K → (∀ j, j < K → c.real_LRU s i2 j = 0) → i2 = i) ∧
          (∀ j, j < K → j ≠ i → last_access es s i < last_access es s j) := by
  obtain ⟨es, info, c, htr, hreq, hK, hm, hinj⟩ := fresh_history Lin Nin K xs hK1 hK2
  refine ⟨es, info, c, htr, hreq, ?_⟩
  intro s hall
  obtain ⟨i, hi, hmin⟩ := exists_min_stamp (last_access es s) K (by omega)
  refine ⟨i, hi, ?_, ?_, ?_⟩
  · intro j hj
    rw [hm s i j (hK ▸ hi) (hK ▸ hj), if_neg (by have := hmin j hj; omega)]
  · intro i2 hi2 hrow
    have h := hrow i hi
    rw [hm s i2 i (hK ▸ hi2) (hK ▸ hi)] at h
    have hle : ¬ last_access es s i < last_access es s i2 := by
      intro hlt
      rw [if_pos hlt] at h
      exact absurd h (by decide)
    have := hmin i2 hi2
    exact hinj s i2 i (hall i2 hi2) (by omega)
  · intro j hj hne
    have hle := hmin j hj
    have hdiff : last_access es s j ≠ last_access es s i :=
      fun h => hne (hinj s j i (hall j hj) h)
    omega

theorem unique_zero_row_is_oldest_witness :
    (1 ≤ 2 ∧ 2 ≤ 255) ∧
    ∃ es info c, (cache.new 16 4 2).trace [0x0000, 0x2200, 0x0004] = some es ∧
      (cache.new 16 4 2).memory_requests [0x0000, 0x2200, 0x0004] = some (info, c) ∧
      ∀ s, (∀ w, w < 2 → 0 < last_access es s w) →
        ∃ i, i < 2 ∧ (∀ j, j < 2 → c.real_LRU s i j = 0) ∧
          (∀ i2, i2 < 2 → (∀ j, j < 2 → c.real_LRU s i2 j = 0) → i2 = i) ∧
          (∀ j, j < 2 → j ≠ i → last_access es s i < last_access es s j) :=
  ⟨by decide, unique_zero_row_is_oldest 16 4 2 [0x0000, 0x2200, 0x0004] (by decide) (by decide)⟩

/-- C14: LRU selection returns the lowest eligible way. For every cache state with
`K ≥ 1` and every set whose recency matrix has at least one row that is zero in all its
`K` columns, `LRU(set)` returns, and the way it returns is the least index `i < K` whose
row `real_LRU[set][i][0..K-1]` is entirely zero. -/
theorem LRU_returns_lowest (c : cache) (set : Nat) (hK : 1 ≤ c.K)
    (hex : ∃ i, i < c.K ∧ ∀ j, j < c.K → c.real_LRU set i j = 0) :
    ∃ w, c.LRU set = some w ∧ w < c.K ∧ (∀ j, j < c.K → c.real_LRU set w j = 0) ∧
      ∀ i, i < c.K → (∀ j, j < c.K → c.real_LRU set i j = 0) → w ≤ i := by
  classical
  refine ⟨Nat.find hex, ?_, (Nat.find_spec hex).1, (Nat.find_spec hex).2, ?_⟩
  · rw [LRU_eq_some c set _ hK]
    refine ⟨(Nat.find_spec hex).1, (Nat.find_spec hex).2, fun i hi => ?_⟩
    have hnot := Nat.find_min hex hi
    have hiK : i < c.K := Nat.lt_trans hi (Nat.find_spec hex).1
    simp only [not_and, not_forall] at hnot
    obtain ⟨j, hj, hne⟩ := hnot hiK
    exact ⟨j, hj, hne⟩
  · intro i hi hrow
    exact Nat.find_min' hex ⟨hi, hrow⟩

theorem LRU_returns_lowest_witness :
    (1 ≤ ((cache.new (2 ^ 4) (2 ^ 2) 2).state_after [0x0000]).K ∧
      ∃ i, i < ((cache.new (2 ^ 4) (2 ^ 2) 2).state_after [0x0000]).K ∧
        ∀ j, j < ((cache.new (2 ^ 4) (2 ^ 2) 2).state_after [0x0000]).K →
          ((cache.new (2 ^ 4) (2 ^ 2) 2).state_after [0x0000]).real_LRU 0 i j = 0) ∧
    ∃ w, ((cache.new (2 ^ 4) (2 ^ 2) 2).state_after [0x0000]).LRU 0 = some w ∧
      w < ((cache.new (2 ^ 4) (2 ^ 2) 2).state_after [0x0000]).K ∧
      (∀ j, j < ((cache.new (2 ^ 4) (2 ^ 2) 2).state_after [0x0000]).K →
        ((cache.new (2 ^ 4) (2 ^ 2) 2).state_after [0x0000]).real_LRU 0 w j = 0) ∧
      ∀ i, i < ((cache.new (2 ^ 4) (2 ^ 2) 2).state_after [0x0000]).K →
        (∀ j, j < ((cache.new (2 ^ 4) (2 ^ 2) 2).state_after [0x0000]).K →
          ((cache.new (2 ^ 4) (2 ^ 2) 2).state_after [0x0000]).real_LRU 0 i j = 0) → w ≤ i :=
  ⟨⟨by decide, 1, by decide, by decide⟩,
    LRU_returns_lowest _ 0 (by decide) ⟨1, by decide, by decide⟩⟩

/-- C15: a hit performs no replacement. For every cache state (in particular every
reachable one) and every address whose tag is held by a way of its set, processing that
address returns misses = 0, hits = 1, leaves every tag slot of every set unchanged and
leaves the recency matrix of every other set unchanged; the new state is the old one
after `LRU_addition(w, set)` for the first way `w` holding the tag. -/
theorem hit_no_replacement (c : cache) (x : Nat)
    (hfound : ∃ i, i < c.K ∧ c.tag_vals (c.set x) i = c.tag x) :
    ∃ w c2, c.memory_requests [x] = some ({ misses := 0, hits := 1 }, c2) ∧
      w < c.K ∧ c.tag_vals (c.set x) w = c.tag x ∧
      c2 = c.LRU_addition w (c.set x) ∧
      (∀ s i, c2.tag_vals s i = c.tag_vals s i) ∧
      (∀ s, s ≠ c.set x → ∀ i j, c2.real_LRU s i j = c.real_LRU s i j) := by
  cases hfh : c.find_hit (c.set x) (c.tag x) with
  | none =>
    obtain ⟨i, hi, hit⟩ := hfound
    exact absurd hit ((find_hit_eq_none c _ _).1 hfh i hi)
  | some w =>
    obtain ⟨hw, hwt, _⟩ := (find_hit_eq_some c _ _ w).1 hfh
    have hstep : c.step x = some (true, w, c.LRU_addition w (c.set x)) := by
      simp only [cache.step, hfh]
    refine ⟨w, c.LRU_addition w (c.set x), ?_, hw, hwt, rfl, fun _ _ => rfl, ?_⟩
    · rw [cache.memory_requests, requests_loop_cons c _ _ x w true [] hstep]
      rfl
    · intro s hs i j
      rw [LRU_addition_frame c w (c.set x) s hs]

theorem hit_no_replacement_witness :
    (∃ i, i < ((cache.new (2 ^ 4) (2 ^ 2) 2).state_after [0x0000, 0x2200]).K ∧
      ((cache.new (2 ^ 4) (2 ^ 2) 2).state_after [0x0000, 0x2200]).tag_vals
          (((cache.new (2 ^ 4) (2 ^ 2) 2).state_after [0x0000, 0x2200]).set 0x2204) i
        = ((cache.new (2 ^ 4) (2 ^ 2) 2).state_after [0x0000, 0x2200]).tag 0x2204) ∧
    ∃ w c2, ((cache.new (2 ^ 4) (2 ^ 2) 2).state_after [0x0000, 0x2200]).memory_requests [0x2204]
        = some ({ misses := 0, hits := 1 }, c2) ∧
      w < ((cache.new (2 ^ 4) (2 ^ 2) 2).state_after [0x0000, 0x2200]).K ∧
      ((cache.new (2 ^ 4) (2 ^ 2) 2).state_after [0x0000, 0x2200]).tag_vals
          (((cache.new (2 ^ 4) (2 ^ 2) 2).state_after [0x0000, 0x2200]).set 0x2204) w
        = ((cache.new (2 ^ 4) (2 ^ 2) 2).state_after [0x0000, 0x2200]).tag 0x2204 ∧
      c2 = ((cache.new (2 ^ 4) (2 ^ 2) 2).state_after [0x0000, 0x2200]).LRU_addition w
        (((cache.new (2 ^ 4) (2 ^ 2) 2).state_after [0x0000, 0x2200]).set 0x2204) ∧
      (∀ s i, c2.tag_vals s i
        = ((cache.new (2 ^ 4) (2 ^ 2) 2).state_after [0x0000, 0x2200]).tag_vals s i) ∧
      (∀ s, s ≠ ((cache.new (2 ^ 4) (2 ^ 2) 2).state_after [0x0000, 0x2200]).set 0x2204 →
        ∀ i j, c2.real_LRU s i j
          = ((cache.new (2 ^ 4) (2 ^ 2) 2).state_after [0x0000, 0x2200]).real_LRU s i j) :=
  ⟨⟨1, by decide, by decide⟩, hit_no_replacement _ 0x2204 ⟨1, by decide, by decide⟩⟩

/-- C16: the two source files implement different replacement behaviour. In `tut_6.cpp`
a miss leaves the recency matrix unchanged. So for line size `2^a`, set count `2^b`
(`a, b ≤ 7`) with lineSize*setCount ≥ 2, associativity `2 ≤ K ≤ 255`, and 16-bit addresses
`x`, `y` of the same set with different tags, `tut_6.cpp` on a freshly constructed cache
installs the tags of `x` and of `y` both into way 0 (`y` overwrites `x`), and [x, y, x]
returns misses = 3, hits = 0, whereas `cache_comp.cpp` returns misses = 2, hits = 1. -/
theorem files_differ (a b K x y : Nat) (ha : a ≤ 7) (hb : b ≤ 7)
    (hLN : 2 ≤ 2 ^ a * 2 ^ b) (hK1 : 2 ≤ K) (hK2 : K ≤ 255) (hx : x < 65536) (hy : y < 65536)
    (hset : (cache.new (2 ^ a) (2 ^ b) K).set x = (cache.new (2 ^ a) (2 ^ b) K).set y)
    (htag : (cache.new (2 ^ a) (2 ^ b) K).tag x ≠ (cache.new (2 ^ a) (2 ^ b) K).tag y) :
    (∀ c z w c2, tut_6.step c z = some (false, w, c2) → c2.real_LRU = c.real_LRU) ∧
    (∃ c1 c2 info, tut_6.step (cache.new (2 ^ a) (2 ^ b) K) x = some (false, 0, c1) ∧
      c1.tag_vals ((cache.new (2 ^ a) (2 ^ b) K).set x) 0 = (cache.new (2 ^ a) (2 ^ b) K).tag x ∧
      tut_6.step c1 y = some (false, 0, c2) ∧
      c2.tag_vals ((cache.new (2 ^ a) (2 ^ b) K).set x) 0 = (cache.new (2 ^ a) (2 ^ b) K).tag y ∧
      tut_6.memory_requests (cache.new (2 ^ a) (2 ^ b) K) [x, y] = some (info, c2)) ∧
    tut_6.counts (cache.new (2 ^ a) (2 ^ b) K) [x, y, x] = some { misses := 3, hits := 0 } ∧
    (cache.new (2 ^ a) (2 ^ b) K).counts [x, y, x] = some { misses := 2, hits := 1 } := by
  have hg : Geom (cache.new (2 ^ a) (2 ^ b) K) := Geom_new a b K ha hb hLN
  have hK : (cache.new (2 ^ a) (2 ^ b) K).K = K := by
    simp [Nat.mod_eq_of_lt (show K < 256 by omega)]
  have htx := hg.tag_lt _ x hx
  have hty := hg.tag_lt _ y hy
  generalize hc0 : cache.new (2 ^ a) (2 ^ b) K = c0 at hset htag hg hK htx hty ⊢
  have hT0 : ∀ s i, c0.tag_vals s i = 0xFFFF := by subst hc0; intro s i; rfl
  have hM0 : ∀ s i j, c0.real_LRU s i j = 0 := by subst hc0; intro s i j; rfl
  have hpos : 0 < c0.K := by omega
  -- first miss
  have h1 := tut_6.step_miss c0 x hpos
    (fun i _ => by rw [hT0]; omega) (fun j _ => hM0 _ _ _)
  generalize hc1 : ({ c0 with tag_vals := write2 c0.tag_vals (c0.set x) 0 (c0.tag x) } : cache)
    = c1 at h1
  have hs1 : ∀ z, c1.set z = c0.set z ∧ c1.tag z = c0.tag z := by subst hc1; intro z; exact ⟨rfl, rfl⟩
  have hK1c : c1.K = c0.K := by subst hc1; rfl
  have hM1 : ∀ s i j, c1.real_LRU s i j = 0 := by subst hc1; exact hM0
  have hT1 : ∀ i, c1.tag_vals (c0.set x) i = if i = 0 then c0.tag x else 0xFFFF := by
    subst hc1; intro i
    show write2 c0.tag_vals (c0.set x) 0 (c0.tag x) (c0.set x) i = _
    simp only [write2, true_and, hT0]
  -- second miss
  have h2 := tut_6.step_miss c1 y (hK1c ▸ hpos)
    (fun i _ => by
      rw [(hs1 y).1, (hs1 y).2, ← hset, hT1]
      split_ifs
      · exact htag
      · omega)
    (fun j _ => hM1 _ _ _)
  rw [(hs1 y).1, (hs1 y).2, ← hset] at h2
  generalize hc2 : ({ c1 with tag_vals := write2 c1.tag_vals (c0.set x) 0 (c0.tag y) } : cache)
    = c2 at h2
  have hs2 : ∀ z, c2.set z = c0.set z ∧ c2.tag z = c0.tag z := by
    subst hc2; intro z; exact hs1 z
  have hK2c : c2.K = c0.K := by subst hc2; exact hK1c
  have hM2 : ∀ s i j, c2.real_LRU s i j = 0 := by subst hc2; exact hM1
  have hT2 : ∀ i, c2.tag_vals (c0.set x) i = if i = 0 then c0.tag y else 0xFFFF := by
    subst hc2; intro i
    show write2 c1.tag_vals (c0.set x) 0 (c0.tag y) (c0.set x) i = _
    simp only [write2, true_and, hT1]
    split_ifs <;> rfl
  -- third miss
  have h3 := tut_6.step_miss c2 x (hK2c ▸ hpos)
    (fun i _ => by
      rw [(hs2 x).1, (hs2 x).2, hT2]
      split_ifs
      · exact Ne.symm htag
      · omega)
    (fun j _ => hM2 _ _ _)
  refine ⟨fun c z w c2 h => tut_6.miss_keeps_matrix c c2 z w h, ?_, ?_, ?_⟩
  · refine ⟨c1, c2, (({ misses := 0, hits := 0 } : hit_info).count false).count false, h1,
      by rw [hT1]; rfl, h2, by rw [hT2]; rfl, ?_⟩
    rw [tut_6.memory_requests, tut_6.requests_loop_step c0 c1 _ x 0 false _ h1,
      tut_6.requests_loop_step c1 c2 _ y 0 false _ h2]
    rfl
  · rw [tut_6.counts, tut_6.memory_requests, tut_6.requests_loop_step c0 c1 _ x 0 false _ h1,
      tut_6.requests_loop_step c1 c2 _ y 0 false _ h2,
      tut_6.requests_loop_step c2 _ _ x 0 false _ h3]
    rfl
  · subst hc0
    obtain ⟨_, c4, hreq, _, _⟩ := fresh_run a b K [x, y, x] ha hb hLN (by omega) hK2
      (by intro z hz; simp at hz; omega)
    rw [(new_set_tag a b K x ha hb).1, (new_set_tag a b K y ha hb).1] at hset
    rw [(new_set_tag a b K x ha hb).2, (new_set_tag a b K y ha hb).2] at htag
    have href := ref_aba (2 ^ a) (2 ^ b) K x y hK1 hset htag
    rw [cache.counts, hreq, href]
    rfl

theorem files_differ_witness :
    (4 ≤ 7 ∧ 2 ≤ 7 ∧ 2 ≤ 2 ^ 4 * 2 ^ 2 ∧ 2 ≤ 2 ∧ 2 ≤ 255 ∧ 0x0000 < 65536 ∧ 0x2200 < 65536 ∧
        (cache.new (2 ^ 4) (2 ^ 2) 2).set 0x0000 = (cache.new (2 ^ 4) (2 ^ 2) 2).set 0x2200 ∧
        (cache.new (2 ^ 4) (2 ^ 2) 2).tag 0x0000 ≠ (cache.new (2 ^ 4) (2 ^ 2) 2).tag 0x2200) ∧
      tut_6.counts (cache.new (2 ^ 4) (2 ^ 2) 2) [0x0000, 0x2200, 0x0000]
          = some { misses := 3, hits := 0 } ∧
      (cache.new (2 ^ 4) (2 ^ 2) 2).counts [0x0000, 0x2200, 0x0000]
          = some { misses := 2, hits := 1 } :=
  ⟨by decide,
    (files_differ 4 2 2 0x0000 0x2200 (by decide) (by decide) (by decide) (by decide) (by decide)
      (by decide) (by decide) (by decide) (by decide)).2.2⟩

/-- C17: LRU selection never falls through, in `cache_comp.cpp` and in `tut_6.cpp`. In
every state reachable from a freshly constructed cache (`1 ≤ K ≤ 255`, line size and set
count powers of two) by `memory_requests` of either file, every set has a way whose
recency row is zero in all `K` columns, so `LRU(set)` reaches its `return` and yields a
way index below `K`; hence every call of `memory_requests` returns. -/
theorem LRU_never_falls_through (c : cache) (s : Nat)
    (hc : Reachable c ∨ tut_6.Reachable c) :
    (∃ i, i < c.K ∧ ∀ j, j < c.K → c.real_LRU s i j = 0) ∧
    (∃ w, c.LRU s = some w ∧ w < c.K) ∧
    (Reachable c → ∀ xs, ∃ info c2, c.memory_requests xs = some (info, c2)) ∧
    (tut_6.Reachable c → ∀ xs, ∃ info c2, tut_6.memory_requests c xs = some (info, c2)) := by
  have hm : MatInv c := by
    rcases hc with h | h
    · exact h.matInv
    · exact h.matrix_inv
  refine ⟨(hm.zero_row c s).1, (hm.zero_row c s).2, fun _ xs => ?_, fun _ xs => ?_⟩
  · obtain ⟨info, c2, h, _⟩ := loop_total xs c { misses := 0, hits := 0 } hm
    exact ⟨info, c2, h⟩
  · obtain ⟨info, c2, h, _⟩ := tut_6.loop_returns xs c { misses := 0, hits := 0 } hm
    exact ⟨info, c2, h⟩

theorem LRU_never_falls_through_witness :
    (Reachable ((cache.new (2 ^ 4) (2 ^ 2) 2).state_after [0x0000, 0x2200]) ∨
        tut_6.Reachable ((cache.new (2 ^ 4) (2 ^ 2) 2).state_after [0x0000, 0x2200])) ∧
      ∃ w, ((cache.new (2 ^ 4) (2 ^ 2) 2).state_after [0x0000, 0x2200]).LRU 0 = some w ∧
        w < ((cache.new (2 ^ 4) (2 ^ 2) 2).state_after [0x0000, 0x2200]).K :=
  ⟨Or.inl ((Reachable.new 4 2 2 (by decide) (by decide) (by decide) (by decide)).state_after _
      (by decide)),
    (LRU_never_falls_through _ 0
      (Or.inl ((Reachable.new 4 2 2 (by decide) (by decide) (by decide) (by decide)).state_after
        _ (by decide)))).2.1⟩

/-- C18: sets are isolated. For every reachable cache state and every address, with `s`
the set index of the address, processing the address returns and leaves the tag slots
and the recency matrix of every set other than `s` unchanged. -/
theorem sets_isolated (c : cache) (x : Nat) (hc : Reachable c) :
    ∃ info c2, c.memory_requests [x] = some (info, c2) ∧
      ∀ s, s ≠ c.set x →
        (∀ i, c2.tag_vals s i = c.tag_vals s i) ∧
        (∀ i j, c2.real_LRU s i j = c.real_LRU s i j) := by
  obtain ⟨hit, w, c2, hstep, _⟩ := step_total c x hc.matInv
  refine ⟨({ misses := 0, hits := 0 } : hit_info).count hit, c2, ?_, fun s hs => ?_⟩
  · rw [cache.memory_requests, requests_loop_cons c c2 _ x w hit [] hstep]
    rfl
  · obtain ⟨hT, hM⟩ := step_frame c c2 x w hit hstep s hs
    exact ⟨fun i => by rw [hT], fun i j => by rw [hM]⟩

theorem sets_isolated_witness :
    Reachable ((cache.new (2 ^ 4) (2 ^ 2) 2).state_after [0x0000, 0x2200]) ∧
    ∃ info c2, ((cache.new (2 ^ 4) (2 ^ 2) 2).state_after [0x0000, 0x2200]).memory_requests [0x0010]
        = some (info, c2) ∧
      ∀ s, s ≠ ((cache.new (2 ^ 4) (2 ^ 2) 2).state_after [0x0000, 0x2200]).set 0x0010 →
        (∀ i, c2.tag_vals s i
          = ((cache.new (2 ^ 4) (2 ^ 2) 2).state_after [0x0000, 0x2200]).tag_vals s i) ∧
        (∀ i j, c2.real_LRU s i j
          = ((cache.new (2 ^ 4) (2 ^ 2) 2).state_after [0x0000, 0x2200]).real_LRU s i j) :=
  ⟨(Reachable.new 4 2 2 (by decide) (by decide) (by decide) (by decide)).state_after _
      (by decide),
    sets_isolated _ 0x0010
      ((Reachable.new 4 2 2 (by decide) (by decide) (by decide) (by decide)).state_after _
        (by decide))⟩

/-- C19: for direct-mapped caches the two source files are equivalent. For associativity
1, line size `2^a` and set count `2^b` (`a, b ≤ 7`) and every request vector processed
from a freshly constructed cache, `memory_requests` of `tut_6.cpp` and of `cache_comp.cpp`
both return, with the same hits and misses and the same final cache state (tag store and
recency matrix), and the recency matrix is still all zero. -/
theorem direct_mapped_files_agree (a b : Nat) (xs : List Nat) (ha : a ≤ 7) (hb : b ≤ 7) :
    ∃ info c2, (cache.new (2 ^ a) (2 ^ b) 1).memory_requests xs = some (info, c2) ∧
      tut_6.memory_requests (cache.new (2 ^ a) (2 ^ b) 1) xs = some (info, c2) ∧
      ∀ s i j, c2.real_LRU s i j = 0 := by
  obtain ⟨info, c2, hloop, _⟩ := loop_total xs (cache.new (2 ^ a) (2 ^ b) 1)
    { misses := 0, hits := 0 }
    (Reachable.new a b 1 ha hb (by decide) (by decide)).matInv
  obtain ⟨heq, hzero⟩ := loop_direct xs (cache.new (2 ^ a) (2 ^ b) 1)
    { misses := 0, hits := 0 } rfl (fun _ _ _ => rfl)
  refine ⟨info, c2, hloop, ?_, hzero info c2 hloop⟩
  rw [tut_6.memory_requests, heq]
  exact hloop

theorem direct_mapped_files_agree_witness :
    (4 ≤ 7 ∧ 3 ≤ 7) ∧
      ∃ info c2, (cache.new (2 ^ 4) (2 ^ 3) 1).memory_requests memory_inputs = some (info, c2) ∧
        tut_6.memory_requests (cache.new (2 ^ 4) (2 ^ 3) 1) memory_inputs = some (info, c2) ∧
        ∀ s i j, c2.real_LRU s i j = 0 :=
  ⟨by decide, direct_mapped_files_agree 4 3 memory_inputs (by decide) (by decide)⟩

/-- C20, counterexample: with geometry (16, 8) the request vector
`0x0000, 0x0000, 0x0080, 0x0000` followed by `2^31 - 1` pairs `0x0080, 0x0000` returns
hits = 1 with one way (only the second request hits) but hits = 0 with two ways, where
all but two requests hit and the `uint32_t` hit counter wraps at `2^32`. -/
theorem extra_way_hits_wrap :
    (cache.new (2 ^ 4) (2 ^ 3) 1).counts
        ([0x0000, 0x0000, 0x0080, 0x0000] ++ alternate 2147483647 0x0080 0x0000)
      = some { misses := 1, hits := 1 } ∧
    (cache.new (2 ^ 4) (2 ^ 3) 2).counts
        ([0x0000, 0x0000, 0x0080, 0x0000] ++ alternate 2147483647 0x0080 0x0000)
      = some { misses := 2, hits := 0 } := by
  have hxs : ∀ x ∈ [0x0000, 0x0000, 0x0080, 0x0000], x < 65536 := by decide
  constructor
  · have hg := Geom_new 4 3 1 (by decide) (by decide) (by decide)
    obtain ⟨_, c4, hloop, hrel, hK⟩ := refinement_loop [0x0000, 0x0000, 0x0080, 0x0000]
      (cache.new (2 ^ 4) (2 ^ 3) 1) (fun _ => []) { misses := 0, hits := 0 } hg (by decide)
      (fun s => ⟨[], SetInv_new _ _ _ s, rfl⟩) hxs
    obtain ⟨gL, gN, _⟩ := loop_geom _ _ c4 _ _ hloop
    have hinfo : (ref_outcomes (cache.new (2 ^ 4) (2 ^ 3) 1).L (cache.new (2 ^ 4) (2 ^ 3) 1).N
        (cache.new (2 ^ 4) (2 ^ 3) 1).K (fun _ => []) [0x0000, 0x0000, 0x0080, 0x0000]).foldl
          hit_info.count { misses := 0, hits := 0 } = { misses := 3, hits := 1 } := by decide
    rw [hinfo] at hloop
    obtain ⟨c5, h5⟩ := loop_pairs_miss 16 8 0x0080 0x0000 (by decide) (by decide) (by decide)
      (by decide) 2147483647 c4 { misses := 3, hits := 1 } _ (hg.congr _ c4 gL gN)
      (gL.trans (by decide)) (gN.trans (by decide)) (hK.trans (by decide)) hrel (by decide)
      (by decide)
    have h6 : c4.requests_loop { misses := 3, hits := 1 } (alternate 2147483647 0x0080 0x0000)
        = some ({ misses := 1, hits := 1 }, c5) := h5
    exact counts_append _ c4 c5 _ _ _ _ hloop h6
  · have hg := Geom_new 4 3 2 (by decide) (by decide) (by decide)
    obtain ⟨_, c4, hloop, hrel, hK⟩ := refinement_loop [0x0000, 0x0000, 0x0080, 0x0000]
      (cache.new (2 ^ 4) (2 ^ 3) 2) (fun _ => []) { misses := 0, hits := 0 } hg (by decide)
      (fun s => ⟨[], SetInv_new _ _ _ s, rfl⟩) hxs
    obtain ⟨gL, gN, _⟩ := loop_geom _ _ c4 _ _ hloop
    have hinfo : (ref_outcomes (cache.new (2 ^ 4) (2 ^ 3) 2).L (cache.new (2 ^ 4) (2 ^ 3) 2).N
        (cache.new (2 ^ 4) (2 ^ 3) 2).K (fun _ => []) [0x0000, 0x0000, 0x0080, 0x0000]).foldl
          hit_info.count { misses := 0, hits := 0 } = { misses := 2, hits := 2 } := by decide
    rw [hinfo] at hloop
    obtain ⟨c5, h5⟩ := loop_pairs_hit 16 8 0x0080 0x0000 (by decide) (by decide) (by decide)
      (by decide) 2147483647 c4 { misses := 2, hits := 2 } _ (hg.congr _ c4 gL gN)
      (gL.trans (by decide)) (gN.trans (by decide)) (hK.trans (by decide)) hrel (by decide)
      (by decide)
    have h6 : c4.requests_loop { misses := 2, hits := 2 } (alternate 2147483647 0x0080 0x0000)
        = some ({ misses := 2, hits := 0 }, c5) := h5
    exact counts_append _ c4 c5 _ _ _ _ hloop h6

/-- C20 (amended): adding a way never loses hits (LRU inclusion). For line size `2^a`, set
count `2^b` (`a, b ≤ 7`) with lineSize*setCount ≥ 2, every `K` with `1 ≤ K ≤ 254` and every
vector of 16-bit addresses, processed by freshly constructed caches with `K` and with
`K + 1` ways: every request that hits with `K` ways hits with `K + 1` ways, so the number
of hit outcomes does not decrease; and when the vector has fewer than `2^32` addresses the
hits returned with `K + 1` ways are at least the hits returned with `K` ways. -/
theorem adding_a_way_keeps_hits (a b K : Nat) (xs : List Nat) (ha : a ≤ 7) (hb : b ≤ 7)
    (hLN : 2 ≤ 2 ^ a * 2 ^ b) (hK1 : 1 ≤ K) (hK2 : K ≤ 254) (hx : ∀ x ∈ xs, x < 65536) :
    ∃ o1 o2 i1 i2, (cache.new (2 ^ a) (2 ^ b) K).outcomes xs = some o1 ∧
      (cache.new (2 ^ a) (2 ^ b) (K + 1)).outcomes xs = some o2 ∧
      List.Forall₂ (fun h h2 => h = true → h2 = true) o1 o2 ∧
      o1.count true ≤ o2.count true ∧
      (cache.new (2 ^ a) (2 ^ b) K).counts xs = some i1 ∧
      (cache.new (2 ^ a) (2 ^ b) (K + 1)).counts xs = some i2 ∧
      (xs.length < 2 ^ 32 → i1.hits ≤ i2.hits) := by
  obtain ⟨hout1, c1, hreq1, _, _⟩ := fresh_run a b K xs ha hb hLN hK1 (by omega) hx
  obtain ⟨hout2, c2, hreq2, _, _⟩ := fresh_run a b (K + 1) xs ha hb hLN (by omega) (by omega) hx
  have hincl := ref_outcomes_incl (2 ^ a) (2 ^ b) K hK1 xs (fun _ => []) (fun _ => [])
    (fun _ => ⟨Nat.zero_le _, by simp⟩)
  have hcount := count_true_mono _ _ hincl
  refine ⟨_, _, _, _, hout1, hout2, hincl, hcount, by rw [cache.counts, hreq1]; rfl,
    by rw [cache.counts, hreq2]; rfl, ?_⟩
  intro hlen
  have h1 := foldl_count_hits (ref_outcomes (2 ^ a) (2 ^ b) K (fun _ => []) xs)
    { misses := 0, hits := 0 } (by decide)
  have h2 := foldl_count_hits (ref_outcomes (2 ^ a) (2 ^ b) (K + 1) (fun _ => []) xs)
    { misses := 0, hits := 0 } (by decide)
  have l1 : (ref_outcomes (2 ^ a) (2 ^ b) K (fun _ => []) xs).count true ≤ xs.length := by
    rw [← length_ref_outcomes (2 ^ a) (2 ^ b) K xs (fun _ => [])]
    exact List.count_le_length _ _
  have l2 : (ref_outcomes (2 ^ a) (2 ^ b) (K + 1) (fun _ => []) xs).count true ≤ xs.length := by
    rw [← length_ref_outcomes (2 ^ a) (2 ^ b) (K + 1) xs (fun _ => [])]
    exact List.count_le_length _ _
  simp only [hit_info.tally, h1, h2, Nat.zero_add]
  rw [Nat.mod_eq_of_lt (by omega), Nat.mod_eq_of_lt (by omega)]
  exact hcount

theorem adding_a_way_keeps_hits_witness :
    (4 ≤ 7 ∧ 1 ≤ 7 ∧ 2 ≤ 2 ^ 4 * 2 ^ 1 ∧ 1 ≤ 4 ∧ 4 ≤ 254 ∧ ∀ x ∈ memory_inputs, x < 65536) ∧
    ∃ o1 o2 i1 i2, (cache.new (2 ^ 4) (2 ^ 1) 4).outcomes memory_inputs = some o1 ∧
      (cache.new (2 ^ 4) (2 ^ 1) (4 + 1)).outcomes memory_inputs = some o2 ∧
      List.Forall₂ (fun h h2 => h = true → h2 = true) o1 o2 ∧
      o1.count true ≤ o2.count true ∧
      (cache.new (2 ^ 4) (2 ^ 1) 4).counts memory_inputs = some i1 ∧
      (cache.new (2 ^ 4) (2 ^ 1) (4 + 1)).counts memory_inputs = some i2 ∧
      (memory_inputs.length < 2 ^ 32 → i1.hits ≤ i2.hits) :=
  ⟨by decide,
    adding_a_way_keeps_hits 4 1 4 memory_inputs (by decide) (by decide) (by decide) (by decide)
      (by decide) (by decide)⟩

end CacheSim
